import Mathlib

/-
Shallow embedding of the snapshot/versioning engine of the cutready
repository (src/src-tauri/src/engine/versioning.rs), together with proofs
about its operations.

Modelling conventions:
* A blob or tree object id is identified with its content: the model treats
  the content hash as a perfect (injective) function, so an object id is the
  object itself.  The type Fs plays the role of both a tree object and the
  listing of a directory on disk.
* A commit id is the full first-parent chain of commit data, newest first
  (type CommitId below): in git a commit hash determines the whole chain, so
  this is again the content-as-id convention.  The parent of d :: t is t.
* The repository state (RepoState) collects the on-disk state the Rust code
  manipulates: the working directory listing, the set of commit objects in
  the object database, the branch ref files, HEAD, the cutready-prev-tip
  marker, the cutready-stash marker and the cutready-timeline-labels table.
* Strings that fail to parse as an object id are modelled by RawId.invalid.
* Filesystem I/O failures are not modelled; the error paths that remain are
  the object-database misses and invalid-input paths of the Rust code.
-/

/-
A filesystem tree: file contents are byte lists, directories are listings
of named children.  Also serves as blob/tree object content (and hence, by
the content-as-id convention, as object id).
-/
mutual
inductive Fs where
  | file (data : List Nat)
  | dir (entries : Entries)
inductive Entries where
  | nil
  | cons (name : String) (child : Fs) (rest : Entries)
end

mutual
def Fs.beq : Fs → Fs → Bool
  | .file d1, .file d2 => d1 == d2
  | .dir e1, .dir e2 => Entries.beq e1 e2
  | _, _ => false
termination_by structural a => a
def Entries.beq : Entries → Entries → Bool
  | .nil, .nil => true
  | .cons n1 f1 t1, .cons n2 f2 t2 => n1 == n2 && Fs.beq f1 f2 && Entries.beq t1 t2
  | _, _ => false
termination_by structural a => a
end

mutual
theorem Fs.beq_iff : ∀ (a b : Fs), Fs.beq a b = true ↔ a = b
  | .file d1, .file d2 => by simp [Fs.beq]
  | .file _, .dir _ => by simp [Fs.beq]
  | .dir _, .file _ => by simp [Fs.beq]
  | .dir e1, .dir e2 => by simp [Fs.beq, Entries.beqIff e1 e2]
theorem Entries.beqIff : ∀ (a b : Entries), Entries.beq a b = true ↔ a = b
  | .nil, .nil => by simp [Entries.beq]
  | .nil, .cons _ _ _ => by simp [Entries.beq]
  | .cons _ _ _, .nil => by simp [Entries.beq]
  | .cons n1 f1 t1, .cons n2 f2 t2 => by
      simp [Entries.beq, Fs.beq_iff f1 f2, Entries.beqIff t1 t2, and_assoc]
end

instance : DecidableEq Fs := fun a b => decidable_of_iff _ (Fs.beq_iff a b)
instance : DecidableEq Entries := fun a b => decidable_of_iff _ (Entries.beqIff a b)

/-- Conversion of an Entries listing to a plain list of named children. -/
def toListE : Entries → List (String × Fs)
  | .nil => []
  | .cons n f t => (n, f) :: toListE t

/-- Conversion of a plain list of named children back to an Entries listing. -/
def ofListE : List (String × Fs) → Entries
  | [] => .nil
  | (n, f) :: t => .cons n f (ofListE t)

theorem toListE_ofListE : ∀ (l : List (String × Fs)), toListE (ofListE l) = l
  | [] => rfl
  | (n, f) :: t => by simp [ofListE, toListE, toListE_ofListE t]

theorem ofListE_toListE : ∀ (e : Entries), ofListE (toListE e) = e
  | .nil => rfl
  | .cons n f t => by simp [toListE, ofListE, ofListE_toListE t]

theorem toListE_inj {a b : Entries} (h : toListE a = toListE b) : a = b := by
  have := congrArg ofListE h
  rwa [ofListE_toListE, ofListE_toListE] at this

/-- Appending two directory listings. -/
def appendE : Entries → Entries → Entries
  | .nil, b => b
  | .cons n f t, b => .cons n f (appendE t b)

theorem toListE_appendE : ∀ (a b : Entries),
    toListE (appendE a b) = toListE a ++ toListE b
  | .nil, _ => rfl
  | .cons n f t, b => by simp [appendE, toListE, toListE_appendE t b]

/-- Whether a directory entry name is hidden: the Rust code checks that the
name starts with a dot. -/
def isHidden (name : String) : Bool :=
  match name.data with
  | [] => false
  | c :: _ => c = '.'

/-- Code-point-wise comparison of character lists, the order used by git for
tree entries. -/
def charListLe : List Char → List Char → Bool
  | [], _ => true
  | _ :: _, [] => false
  | a :: as, b :: bs =>
      if a < b then true else if b < a then false else charListLe as bs

/-- Lexicographic string comparison on the underlying character data. -/
def strLe (a b : String) : Bool := charListLe a.data b.data

theorem charListLe_total : ∀ a b : List Char, charListLe a b = true ∨ charListLe b a = true
  | [], _ => Or.inl rfl
  | _ :: _, [] => Or.inr rfl
  | a :: as, b :: bs => by
      simp only [charListLe]
      rcases lt_trichotomy a b with h | h | h
      · left; simp [h]
      · subst h
        have h1 : ¬ a < a := lt_irrefl a
        rcases charListLe_total as bs with ih | ih
        · left; simp [h1, ih]
        · right; simp [h1, ih]
      · right; simp [h]

theorem charListLe_trans : ∀ a b c : List Char,
    charListLe a b = true → charListLe b c = true → charListLe a c = true
  | [], _, _, _, _ => rfl
  | _ :: _, [], _, h, _ => by simp [charListLe] at h
  | _ :: _, _ :: _, [], _, h => by simp [charListLe] at h
  | a :: as, b :: bs, c :: cs, hab, hbc => by
      simp only [charListLe] at hab hbc ⊢
      rcases lt_trichotomy a b with h1 | h1 | h1
      · by_cases hac : a < c
        · simp [hac]
        · exfalso
          by_cases hbc1 : b < c
          · exact hac (lt_trans h1 hbc1)
          · by_cases hcb : c < b
            · simp [hbc1, hcb] at hbc
            · have hbceq : b = c := le_antisymm (not_lt.1 hcb) (not_lt.1 hbc1)
              exact hac (hbceq ▸ h1)
      · subst h1
        by_cases hac : a < c
        · simp [hac]
        · by_cases hca : c < a
          · simp [hac, hca] at hbc
          · simp only [hac, hca, if_false] at hbc ⊢
            simp only [lt_irrefl a, if_false] at hab
            exact charListLe_trans as bs cs hab hbc
      · simp [lt_asymm h1, h1] at hab

theorem charListLe_antisymm : ∀ a b : List Char,
    charListLe a b = true → charListLe b a = true → a = b
  | [], [], _, _ => rfl
  | [], _ :: _, _, h => by simp [charListLe] at h
  | _ :: _, [], h, _ => by simp [charListLe] at h
  | a :: as, b :: bs, hab, hba => by
      simp only [charListLe] at hab hba
      rcases lt_trichotomy a b with h1 | h1 | h1
      · simp [lt_asymm h1, h1] at hba
      · subst h1
        simp [lt_irrefl a] at hab hba
        rw [charListLe_antisymm as bs hab hba]
      · simp [lt_asymm h1, h1] at hab

theorem strLe_total (a b : String) : strLe a b = true ∨ strLe b a = true :=
  charListLe_total a.data b.data

theorem strLe_trans {a b c : String} (h1 : strLe a b = true) (h2 : strLe b c = true) :
    strLe a c = true :=
  charListLe_trans a.data b.data c.data h1 h2

theorem strLe_antisymm {a b : String} (h1 : strLe a b = true) (h2 : strLe b a = true) :
    a = b := by
  cases a with
  | mk da =>
      cases b with
      | mk db =>
          have : da = db := charListLe_antisymm da db h1 h2
          rw [this]

/-- Sort key of a tree entry: gix sorts tree entries with directory names
compared as if they ended in a slash. -/
def entryKey : String × Fs → String
  | (n, .dir _) => n ++ "/"
  | (n, .file _) => n

/-- The (non-strict) git tree-entry order. -/
def entryLe (a b : String × Fs) : Prop := strLe (entryKey a) (entryKey b) = true

instance : DecidableRel entryLe := fun _ _ => by unfold entryLe; infer_instance

instance : IsTotal (String × Fs) entryLe := ⟨fun _ _ => strLe_total _ _⟩

instance : IsTrans (String × Fs) entryLe := ⟨fun _ _ _ => strLe_trans⟩

/-- Sorting a directory listing into git tree order (the entries.sort call of
build_tree_from_dir). -/
def sortEntries (es : Entries) : Entries :=
  ofListE (List.insertionSort entryLe (toListE es))

/-
build_tree_from_dir: recursively turn a directory on disk into a tree
object, skipping hidden entries at every level and sorting each listing.
-/
mutual
def buildTree : Fs → Fs
  | .file d => .file d
  | .dir es => .dir (sortEntries (buildEntries es))
termination_by structural a => a
def buildEntries : Entries → Entries
  | .nil => .nil
  | .cons n f t =>
      if isHidden n then buildEntries t else .cons n (buildTree f) (buildEntries t)
termination_by structural a => a
end

/-- Adjacent-pair sortedness of a list of keys. -/
def keysSortedB : List String → Bool
  | [] => true
  | [_] => true
  | a :: b :: t => strLe a b && keysSortedB (b :: t)

/-
A tree object is canonical when it could have been produced by
build_tree_from_dir: no hidden names, children canonical, listing sorted.
-/
mutual
def canonicalTree : Fs → Bool
  | .file _ => true
  | .dir es => canonicalEntries es && keysSortedB ((toListE es).map entryKey)
termination_by structural a => a
def canonicalEntries : Entries → Bool
  | .nil => true
  | .cons n f t => !isHidden n && canonicalTree f && canonicalEntries t
termination_by structural a => a
end

/-- Whether an object is a tree (directory) object. -/
def isDirB : Fs → Bool
  | .dir _ => true
  | .file _ => false

/-- The listing of a tree object (empty for a blob). -/
def treeEntries : Fs → Entries
  | .dir es => es
  | .file _ => .nil

/-- clean_working_dir removes every non-hidden entry of the project
directory, so exactly the hidden entries remain. -/
def keepHidden : Entries → Entries
  | .nil => .nil
  | .cons n f t => if isHidden n then .cons n f (keepHidden t) else keepHidden t

theorem keysSortedB_sorted : ∀ l : List (String × Fs),
    keysSortedB (l.map entryKey) = true ↔ List.Sorted entryLe l
  | [] => by simp [keysSortedB]
  | [a] => by simp [keysSortedB]
  | a :: b :: t => by
      have ih := keysSortedB_sorted (b :: t)
      simp only [List.map, keysSortedB, Bool.and_eq_true] at ih ⊢
      constructor
      · rintro ⟨hab, ht⟩
        have hs := ih.1 ht
        refine List.sorted_cons.2 ⟨?_, hs⟩
        intro c hc
        rcases List.mem_cons.1 hc with rfl | hc
        · exact hab
        · exact strLe_trans hab (List.rel_of_sorted_cons hs c hc)
      · intro hs
        refine ⟨List.rel_of_sorted_cons hs b (List.mem_cons_self b t), ih.2 hs.of_cons⟩

theorem sortEntries_sorted_eq {es : Entries} (h : List.Sorted entryLe (toListE es)) :
    sortEntries es = es := by
  unfold sortEntries
  rw [List.Sorted.insertionSort_eq h, ofListE_toListE]

mutual
theorem buildTree_canonical_fix : ∀ (f : Fs), canonicalTree f = true → buildTree f = f
  | .file _, _ => rfl
  | .dir es, h => by
      simp only [canonicalTree, Bool.and_eq_true] at h
      obtain ⟨h1, h2⟩ := h
      simp only [buildTree]
      rw [buildEntries_canonical_fix es h1, sortEntries_sorted_eq ((keysSortedB_sorted _).1 h2)]
theorem buildEntries_canonical_fix :
    ∀ (es : Entries), canonicalEntries es = true → buildEntries es = es
  | .nil, _ => rfl
  | .cons n f t, h => by
      simp only [canonicalEntries, Bool.and_eq_true, Bool.not_eq_true'] at h
      obtain ⟨⟨hn, hf⟩, ht⟩ := h
      simp only [buildEntries, hn, if_false, Bool.false_eq_true]
      rw [buildTree_canonical_fix f hf, buildEntries_canonical_fix t ht]
end

theorem buildEntries_appendE : ∀ (a b : Entries),
    buildEntries (appendE a b) = appendE (buildEntries a) (buildEntries b)
  | .nil, _ => rfl
  | .cons n f t, b => by
      simp only [appendE, buildEntries]
      by_cases hn : isHidden n
      · simp [hn, buildEntries_appendE t b]
      · simp [hn, appendE, buildEntries_appendE t b]

theorem buildEntries_keepHidden : ∀ (w : Entries), buildEntries (keepHidden w) = .nil
  | .nil => rfl
  | .cons n f t => by
      simp only [keepHidden]
      by_cases hn : isHidden n
      · simp [hn, buildEntries, buildEntries_keepHidden t]
      · simp [hn, buildEntries_keepHidden t]

/-- Checking out a canonical tree over a cleaned working directory and
rebuilding a tree from the result gives back exactly the same tree. -/
theorem buildTree_roundtrip (t : Fs) (w : Entries)
    (hc : canonicalTree t = true) (hd : isDirB t = true) :
    buildTree (.dir (appendE (keepHidden w) (treeEntries t))) = t := by
  cases t with
  | file _ => simp [isDirB] at hd
  | dir es =>
      simp only [canonicalTree, Bool.and_eq_true] at hc
      obtain ⟨h1, h2⟩ := hc
      simp only [treeEntries, buildTree]
      rw [buildEntries_appendE, buildEntries_keepHidden, buildEntries_canonical_fix es h1]
      simp only [appendE]
      rw [sortEntries_sorted_eq ((keysSortedB_sorted _).1 h2)]

theorem toListE_buildEntries : ∀ (es : Entries),
    toListE (buildEntries es) =
      ((toListE es).filter (fun e => !isHidden e.1)).map (fun e => (e.1, buildTree e.2))
  | .nil => rfl
  | .cons n f t => by
      simp only [buildEntries, toListE]
      by_cases hn : isHidden n
      · simp [hn, toListE_buildEntries t]
      · simp [hn, toListE, toListE_buildEntries t]

theorem entryKey_buildTree (e : String × Fs) : entryKey (e.1, buildTree e.2) = entryKey e := by
  obtain ⟨n, f⟩ := e
  cases f <;> simp [buildTree, entryKey]

/-- The strict git tree-entry order (used only to state uniqueness of the
sorted form). -/
def entryLt (a b : String × Fs) : Prop := entryLe a b ∧ entryKey a ≠ entryKey b

/-- Building a tree from two listings of the same directory content (the
same named children, possibly enumerated in a different order by read_dir)
yields the same tree object, provided no two entries share a sort key. -/
theorem buildTree_perm (w1 w2 : Entries)
    (hp : (toListE w1).Perm (toListE w2))
    (hk : ((toListE w1).map entryKey).Nodup) :
    buildTree (.dir w1) = buildTree (.dir w2) := by
  simp only [buildTree]
  congr 1
  unfold sortEntries
  congr 1
  set g : String × Fs → String × Fs := fun e => (e.1, buildTree e.2) with hg
  have hmap : ∀ (l : List (String × Fs)),
      (l.map g).map entryKey = l.map entryKey := by
    intro l
    rw [List.map_map]
    apply List.map_congr_left
    intro e _
    exact entryKey_buildTree e
  set l1 := ((toListE w1).filter (fun e => !isHidden e.1)).map g with hl1
  set l2 := ((toListE w2).filter (fun e => !isHidden e.1)).map g with hl2
  rw [toListE_buildEntries, toListE_buildEntries, ← hl1, ← hl2]
  have hp12 : l1.Perm l2 := (hp.filter _).map g
  have hk1 : (l1.map entryKey).Nodup := by
    rw [hl1, hmap]
    exact (hk.sublist ((List.filter_sublist _).map entryKey))
  have hk2 : (l2.map entryKey).Nodup := ((hp12.map entryKey).nodup_iff).1 hk1
  have hs1 : List.Sorted entryLe (List.insertionSort entryLe l1) :=
    List.sorted_insertionSort entryLe l1
  have hs2 : List.Sorted entryLe (List.insertionSort entryLe l2) :=
    List.sorted_insertionSort entryLe l2
  have hstrict : ∀ (l : List (String × Fs)), List.Sorted entryLe l →
      (l.map entryKey).Nodup → List.Sorted entryLt l := by
    intro l hs hn
    have hpw : l.Pairwise (fun a b => entryKey a ≠ entryKey b) :=
      (List.pairwise_map).1 hn
    exact (List.Pairwise.and hs hpw)
  have hperm : (List.insertionSort entryLe l1).Perm (List.insertionSort entryLe l2) :=
    ((List.perm_insertionSort entryLe l1).trans hp12).trans
      (List.perm_insertionSort entryLe l2).symm
  have hn1 : ((List.insertionSort entryLe l1).map entryKey).Nodup :=
    (((List.perm_insertionSort entryLe l1).map entryKey).nodup_iff).2 hk1
  have hn2 : ((List.insertionSort entryLe l2).map entryKey).Nodup :=
    (((List.perm_insertionSort entryLe l2).map entryKey).nodup_iff).2 hk2
  haveI : IsAntisymm (String × Fs) entryLt :=
    ⟨fun a b h1 h2 => absurd (strLe_antisymm h1.1 h2.1) h1.2⟩
  exact List.eq_of_perm_of_sorted hperm
    (hstrict _ hs1 hn1) (hstrict _ hs2 hn2)

/-- The data of a single commit object apart from its parent pointer.  The
committer identity is a constant in the Rust code and is omitted. -/
structure CommitData where
  tree : Fs
  message : String
  timestamp : Int
deriving DecidableEq

/-- A commit id: the full first-parent chain of commit data, newest first.
The chain of a valid commit is nonempty; the parent of d :: t is t (no
parent when t is empty). -/
abbrev CommitId := List CommitData

/-- The parent commit id of a commit, following the first parent only. -/
def parentOf : CommitId → Option CommitId
  | [] => none
  | _ :: t => if t = [] then none else some t

/-- The HEAD file: either a symbolic ref to a branch (ref: refs/heads/name,
stored here without the refs/heads/ prefix) or a detached commit id. -/
inductive Head where
  | branch (name : String)
  | detached (id : CommitId)
deriving DecidableEq

/-- The persistent state of one project repository. -/
structure RepoState where
  workdir : Entries
  commits : List CommitId
  refs : List (String × CommitId)
  head : Head
  prevTip : Option CommitId
  stash : Option Fs
  labels : List (String × String)
deriving DecidableEq

/-- Errors of the versioning engine (enum VersioningError in the Rust). -/
inductive VersioningError where
  | git (msg : String)
  | io (msg : String)
  | noCommits
deriving DecidableEq

/-- A commit-id string received from the caller: either fails to parse or
denotes an object id. -/
inductive RawId where
  | invalid
  | valid (id : CommitId)
deriving DecidableEq

instance {ε α : Type _} [DecidableEq ε] [DecidableEq α] : DecidableEq (Except ε α) :=
  fun x y =>
  match x, y with
  | .ok a, .ok b =>
      if h : a = b then .isTrue (by rw [h])
      else .isFalse (by intro hx; cases hx; exact h rfl)
  | .error a, .error b =>
      if h : a = b then .isTrue (by rw [h])
      else .isFalse (by intro hx; cases hx; exact h rfl)
  | .ok _, .error _ => .isFalse (by intro hx; cases hx)
  | .error _, .ok _ => .isFalse (by intro hx; cases hx)

/-- The main (default) branch name (MAIN_BRANCH in the Rust). -/
def MAIN_BRANCH : String := "main"

/-- Namespace of timeline branches under refs/heads/ (the Rust constant
holds the full string refs/heads/timeline/). -/
def TIMELINE_NS : String := "timeline/"

/-- Look a branch ref up by name (the ref table is a name-keyed file map,
so names are unique). -/
def lookupRef : List (String × CommitId) → String → Option CommitId
  | [], _ => none
  | r :: t, name => if r.1 == name then some r.2 else lookupRef t name

/-- Write a branch ref file: overwrite it if present, create it otherwise
(reset_branch_ref writes the file directly, creating parent directories). -/
def setRef : List (String × CommitId) → String → CommitId → List (String × CommitId)
  | [], name, c => [(name, c)]
  | r :: t, name, c => if r.1 == name then (name, c) :: t else r :: setRef t name c

/-- Store a label for a slug in the label table (save_timeline_label). -/
def setLabel : List (String × String) → String → String → List (String × String)
  | [], slug, label => [(slug, label)]
  | r :: t, slug, label =>
      if r.1 == slug then (slug, label) :: t else r :: setLabel t slug label

/-- Look a slug up in the label table. -/
def lookupLabel : List (String × String) → String → Option String
  | [], _ => none
  | r :: t, slug => if r.1 == slug then some r.2 else lookupLabel t slug

/-- repo.head_commit(): resolve HEAD to a commit object, if any. -/
def head_commit (s : RepoState) : Option CommitId :=
  match s.head with
  | .branch n =>
      match lookupRef s.refs n with
      | some c => if c ∈ s.commits then some c else none
      | none => none
  | .detached id => if id ∈ s.commits then some id else none

/-- get_current_branch_name: the branch HEAD is attached to, if any. -/
def activeBranchName (s : RepoState) : Option String :=
  match s.head with
  | .branch n => some n
  | .detached _ => none

/-- is_rewound: the cutready-prev-tip marker file exists. -/
def is_rewound (s : RepoState) : Bool := s.prevTip.isSome

/-- has_stash: the cutready-stash marker file exists. -/
def has_stash (s : RepoState) : Bool := s.stash.isSome

/-- Adding a commit object to the object database.  Writing an object that
is already present is a no-op (content addressing dedups). -/
def insertCommit (c : CommitId) (commits : List CommitId) : List CommitId :=
  if c ∈ commits then commits else c :: commits

/-- The effect of clean_working_dir followed by write_tree_to_dir: hidden
entries survive, the tree contents are written out. -/
def checkoutTree (s : RepoState) (t : Fs) : RepoState :=
  { s with workdir := appendE (keepHidden s.workdir) (treeEntries t) }

/-- checkout_version: parse the id, find the commit, clean the working
directory and write the commit tree into it.  All failures happen before
any mutation. -/
def checkout_version (s : RepoState) (commitId : RawId) :
    Except VersioningError RepoState :=
  match commitId with
  | .invalid => .error (.git "invalid commit id")
  | .valid oid =>
      if oid ∈ s.commits then
        match oid with
        | [] => .error (.git "commit not found")
        | d :: _ => .ok (checkoutTree s d.tree)
      else .error (.git "commit not found")

/-- HHMMSS rendering of a Unix timestamp, as chrono format %H%M%S. -/
def pad2 (n : Nat) : String := if n < 10 then "0" ++ toString n else toString n

def formatHHMMSS (now : Int) : String :=
  let sec := (now % 86400).toNat
  pad2 (sec / 3600) ++ pad2 ((sec % 3600) / 60) ++ pad2 (sec % 60)

/-- Whitespace trimming (str::trim in the Rust, restricted to ASCII
whitespace). -/
def isWsChar (c : Char) : Bool := c = ' ' || c = '\t' || c = '\n' || c = '\r'

def trimStr (s : String) : String :=
  String.mk (((s.data.dropWhile isWsChar).reverse.dropWhile isWsChar).reverse)

/-- ASCII lowering of one character (the to_lowercase call of the Rust,
restricted to ASCII). -/
def lowerChar (c : Char) : Char :=
  if 65 ≤ c.toNat && c.toNat ≤ 90 then Char.ofNat (c.toNat + 32) else c

/-- Replacement of every character that is neither alphanumeric nor a dash
by a dash. -/
def slugChar (c : Char) : Char := if c.isAlphanum || c = '-' then c else '-'

/-- slugify_timeline_name: trim, lowercase, replace non-alphanumerics by
dashes, trim dashes from both ends. -/
def slugify_timeline_name (name : String) : String :=
  let low : List Char := (trimStr name).data.map (fun c => slugChar (lowerChar c))
  String.mk ((low.dropWhile (· = '-')).reverse.dropWhile (· = '-') |>.reverse)

/-- The commit id produced by create_commit for a tree, message, time and
optional parent. -/
def mkCommit (tree : Fs) (message : String) (now : Int) (parent : Option CommitId) :
    CommitId :=
  { tree := tree, message := message, timestamp := now } :: parent.getD []

/-- commit_as "HEAD": advance the ref HEAD is attached to (creating it if
the branch is unborn), or move a detached HEAD itself. -/
def advanceHead (s : RepoState) (c : CommitId) : RepoState :=
  match s.head with
  | .branch n => { s with refs := setRef s.refs n c }
  | .detached _ => { s with head := .detached c }

/-- commit_snapshot: build a tree from the working directory, commit it to
HEAD, and, if a prev-tip marker exists (rewound state), create a fork
timeline for the new commit, reset main back to the saved prev tip, point
HEAD at the fork ref and clear the marker.  The wall-clock instant is the
argument now. -/
def commit_snapshot (s : RepoState) (message : String) (forkLabel : Option String)
    (now : Int) : Except VersioningError (RepoState × CommitId) :=
  let treeId := buildTree (.dir s.workdir)
  let parent := head_commit s
  let newId := mkCommit treeId message now parent
  let s1 : RepoState :=
    { advanceHead s newId with commits := insertCommit newId s.commits }
  match s.prevTip with
  | none => .ok (s1, newId)
  | some prevTip =>
      let forkSlug := "fork-" ++ formatHHMMSS now
      let label :=
        match forkLabel with
        | some l => if trimStr l ≠ "" then trimStr l else "New direction"
        | none => "New direction"
      let forkRef := TIMELINE_NS ++ forkSlug
      -- repo.reference with MustNotExist, result discarded with let _ =
      let s2 : RepoState :=
        if (lookupRef s1.refs forkRef).isSome then s1
        else { s1 with refs := s1.refs ++ [(forkRef, newId)] }
      let s3 : RepoState := { s2 with labels := setLabel s2.labels forkSlug label }
      let s4 : RepoState := { s3 with refs := setRef s3.refs MAIN_BRANCH prevTip }
      let s5 : RepoState := { s4 with head := .branch forkRef, prevTip := none }
      .ok (s5, newId)

/-- is_ancestor: walk the first-parent chain of the descendant looking for
the candidate ancestor; a chain commit missing from the object database is
an error. -/
def is_ancestorE (s : RepoState) (anc : CommitId) : CommitId → Except VersioningError Bool
  | [] => .ok false
  | d :: t =>
      if anc = d :: t then .ok true
      else if (d :: t) ∈ s.commits then is_ancestorE s anc t
      else .error (.git "commit not found")

/-- The same walk with any failure collapsed to false (the unwrap_or(false)
call sites). -/
def isAncestorB (s : RepoState) (anc : CommitId) : CommitId → Bool
  | [] => false
  | d :: t =>
      if anc = d :: t then true
      else if (d :: t) ∈ s.commits then isAncestorB s anc t
      else false

/-- Pure suffix formulation of ancestry (used to state theorems). -/
def isAncestor (anc : CommitId) : CommitId → Bool
  | [] => false
  | d :: t => if anc = d :: t then true else isAncestor anc t

/-- One entry of the list_timelines output. -/
structure TimelineInfo where
  name : String
  label : String
  is_active : Bool
  snapshot_count : Nat
  color_index : Nat
deriving DecidableEq

/-- Reconstruction of the full ref name from a TimelineInfo name (the main
timeline uses refs/heads/main, others refs/heads/timeline/slug; the
refs/heads/ prefix is implicit in the model). -/
def refNameOf (tlName : String) : String :=
  if tlName = MAIN_BRANCH then MAIN_BRANCH else TIMELINE_NS ++ tlName

/-- Character-list prefix test. -/
def listStarts : List Char → List Char → Bool
  | [], _ => true
  | _ :: _, [] => false
  | a :: as, b :: bs => a = b && listStarts as bs

def strStarts (pre s : String) : Bool := listStarts pre.data s.data

def stripStart (pre s : String) : String := String.mk (s.data.drop pre.data.length)

/-- Order on ref entries by name (gix iterates references in name order). -/
def refLe (a b : String × CommitId) : Prop := strLe a.1 b.1 = true

instance : DecidableRel refLe := fun _ _ => by unfold refLe; infer_instance

instance : IsTotal (String × CommitId) refLe := ⟨fun _ _ => strLe_total _ _⟩

instance : IsTrans (String × CommitId) refLe := ⟨fun _ _ _ => strLe_trans⟩

/-- The timeline/* refs, in iteration (name) order. -/
def timelineRefs (s : RepoState) : List (String × CommitId) :=
  List.insertionSort refLe (s.refs.filter (fun r => strStarts TIMELINE_NS r.1))

/-- The main entry of list_timelines, when refs/heads/main exists. -/
def mainTimeline (s : RepoState) : List TimelineInfo :=
  match lookupRef s.refs MAIN_BRANCH with
  | some c =>
      [{ name := MAIN_BRANCH, label := "Main",
         is_active := decide (activeBranchName s = some MAIN_BRANCH),
         snapshot_count := c.length, color_index := 0 }]
  | none => []

/-- The timeline/* entries of list_timelines (color indexes are assigned
afterwards). -/
def tlTimelines (s : RepoState) : List TimelineInfo :=
  (timelineRefs s).map (fun r =>
    let slug := stripStart TIMELINE_NS r.1
    { name := slug,
      label := (lookupLabel s.labels slug).getD slug,
      is_active := decide (activeBranchName s = some r.1),
      snapshot_count := r.2.length, color_index := 0 })

/-- Color indexes: one per pushed entry, in push order. -/
def withColors (tls : List TimelineInfo) : List TimelineInfo :=
  tls.enum.map (fun p => { p.2 with color_index := p.1 })

/-- Legacy fallback: a repo with commits but no branch refs lists a
synthetic active Main entry. -/
def legacyMain (s : RepoState) (tls : List TimelineInfo) : List TimelineInfo :=
  if tls.isEmpty then
    match head_commit s with
    | some c =>
        [{ name := MAIN_BRANCH, label := "Main", is_active := true,
           snapshot_count := c.length, color_index := 0 }]
    | none => []
  else tls

/-- Mark the first entry satisfying p active (the iter_mut loop with an
early break; the identity when nothing matches). -/
def markActive (p : TimelineInfo → Bool) : List TimelineInfo → List TimelineInfo
  | [] => []
  | t :: rest =>
      if p t then { t with is_active := true } :: rest else t :: markActive p rest

/-- Detached-HEAD fixup: when no entry is active, mark the timeline whose
tip is HEAD, or failing that the first timeline HEAD is an ancestor of. -/
def fixupActive (s : RepoState) (tls : List TimelineInfo) : List TimelineInfo :=
  if (activeBranchName s).isNone && !(tls.any (fun t => t.is_active)) then
    match head_commit s with
    | none => tls
    | some h =>
        let pTip := fun t => decide (lookupRef s.refs (refNameOf t.name) = some h)
        let pAnc := fun t =>
          match lookupRef s.refs (refNameOf t.name) with
          | some tip => isAncestorB s h tip
          | none => false
        if tls.any pTip then markActive pTip tls else markActive pAnc tls
  else tls

/-- list_timelines: the main entry, then the timeline/* entries, the legacy
fallback and the detached-HEAD fixup. -/
def list_timelines (s : RepoState) : List TimelineInfo :=
  fixupActive s (legacyMain s (withColors (mainTimeline s ++ tlTimelines s)))

/-- switch_timeline: resolve the ref, point HEAD at the branch, check the
branch tip out. -/
def switch_timeline (s : RepoState) (name : String) : Except VersioningError RepoState :=
  let refName := if name = MAIN_BRANCH then MAIN_BRANCH else TIMELINE_NS ++ name
  match lookupRef s.refs refName with
  | none => .error (.git "Timeline not found")
  | some commitId =>
      let s1 : RepoState := { s with head := .branch refName }
      if commitId ∈ s.commits then
        match commitId with
        | [] => .error (.git "commit not found")
        | d :: _ => .ok (checkoutTree s1 d.tree)
      else .error (.git "commit not found")

/-- create_timeline: check the source commit exists, derive the slug,
create the ref (which must not already exist and must have a nonempty
name), store the label, attach HEAD and check the commit out. -/
def create_timeline (s : RepoState) (fromCommitId : RawId) (name : String) :
    Except VersioningError RepoState :=
  match fromCommitId with
  | .invalid => .error (.git "invalid commit id")
  | .valid oid =>
      if oid ∈ s.commits then
        let slug := slugify_timeline_name name
        let refName := TIMELINE_NS ++ slug
        if slug = "" then .error (.git "invalid reference name")
        else if (lookupRef s.refs refName).isSome then
          .error (.git "reference already exists")
        else
          let s1 : RepoState :=
            { s with refs := s.refs ++ [(refName, oid)],
                     labels := setLabel s.labels slug name,
                     head := .branch refName }
          match oid with
          | [] => .error (.git "commit not found")
          | d :: _ => .ok (checkoutTree s1 d.tree)
      else .error (.git "commit not found")

/-- delete_timeline: refuse for main and for the active timeline, then
remove the ref and the label entry. -/
def delete_timeline (s : RepoState) (name : String) : Except VersioningError RepoState :=
  if name = MAIN_BRANCH then .error (.git "Cannot delete the main timeline")
  else
    let refName := TIMELINE_NS ++ name
    if activeBranchName s = some refName then
      .error (.git "Cannot delete the active timeline")
    else
      match lookupRef s.refs refName with
      | none => .error (.git "Timeline not found")
      | some _ =>
          .ok { s with refs := s.refs.filter (fun r => !(r.1 == refName)),
                       labels := s.labels.filter (fun r => !(r.1 == name)) }

/-- stash_working_tree: record the tree built from the working directory in
the single stash slot (overwriting any previous value). -/
def stash_working_tree (s : RepoState) : RepoState :=
  { s with stash := some (buildTree (.dir s.workdir)) }

/-- pop_stash: restore and clear the stash slot if present (returning
true), otherwise report false without touching anything. -/
def pop_stash (s : RepoState) : RepoState × Bool :=
  match s.stash with
  | none => (s, false)
  | some t => ({ checkoutTree s t with stash := none }, true)

/-- navigate_to_snapshot.  The error value carries the state at the point
of failure, because the Rust code mutates on-disk state as it goes. -/
def navigate_to_snapshot (s : RepoState) (commitId : RawId) :
    Except (VersioningError × RepoState) RepoState :=
  match commitId with
  | .invalid => .error (.git "invalid commit id", s)
  | .valid target =>
      match head_commit s with
      | none => .error (.git "no head commit", s)
      | some headOid =>
        if target = headOid then
          match checkout_version s commitId with
          | .ok s' => .ok s'
          | .error e => .error (e, s)
        else
          match is_ancestorE s target headOid with
          | .error e => .error (e, s)
          | .ok goingBackward =>
              let s1 : RepoState :=
                if goingBackward then
                  { s with prevTip := some (s.prevTip.getD headOid) }
                else s
              let s2 : RepoState :=
                match s1.prevTip with
                | some pt => if target = pt then { s1 with prevTip := none } else s1
                | none => s1
              let tls := list_timelines s2
              let s3 : RepoState :=
                match tls.find? (fun t =>
                    decide (lookupRef s2.refs (refNameOf t.name) = some target)) with
                | some t => { s2 with head := .branch (refNameOf t.name) }
                | none => { s2 with head := .detached target }
              match checkout_version s3 (.valid target) with
              | .ok s4 => .ok s4
              | .error e => .error (e, s3)

/-- One node of the timeline graph. -/
structure GraphNode where
  id : CommitId
  message : String
  timestamp : Int
  timeline : String
  parents : List CommitId
  lane : Nat
  is_head : Bool
deriving DecidableEq

/-- Walk a first-parent chain from a tip, stopping at the first commit that
was already visited; each new commit becomes a node attributed to the given
timeline and lane.  Nodes of the prev-tip walk never carry the head mark
(markHead false). -/
def walkChain (tlName : String) (lane : Nat) (headO : Option CommitId) (markHead : Bool) :
    CommitId → List CommitId → List GraphNode × List CommitId
  | [], seen => ([], seen)
  | d :: t, seen =>
      if (d :: t) ∈ seen then ([], seen)
      else
        let node : GraphNode :=
          { id := d :: t, message := trimStr d.message, timestamp := d.timestamp,
            timeline := tlName,
            parents := match t with | [] => [] | _ :: _ => [t],
            lane := lane,
            is_head := markHead && decide (headO = some (d :: t)) }
        let w := walkChain tlName lane headO markHead t ((d :: t) :: seen)
        (node :: w.1, w.2)

/-- The tip a timeline entry is walked from: its ref, or HEAD for legacy
entries without a ref. -/
def resolveTip (s : RepoState) (tl : TimelineInfo) : Option CommitId :=
  match lookupRef s.refs (refNameOf tl.name) with
  | some c => some c
  | none => head_commit s

/-- Walk every timeline in order, threading the visited set. -/
def walkTimelines (s : RepoState) (headO : Option CommitId) :
    List TimelineInfo → List CommitId → List GraphNode × List CommitId
  | [], seen => ([], seen)
  | tl :: rest, seen =>
      match resolveTip s tl with
      | none => walkTimelines s headO rest seen
      | some tip =>
          let w := walkChain tl.name tl.color_index headO true tip seen
          let r := walkTimelines s headO rest w.2
          (w.1 ++ r.1, r.2)

/-- The prev-tip chain walk, attributed to the active timeline. -/
def prevTipNodes (s : RepoState) (headO : Option CommitId)
    (activeO : Option TimelineInfo) (seen : List CommitId) :
    List GraphNode × List CommitId :=
  match s.prevTip with
  | none => ([], seen)
  | some pt =>
      let activeName := (activeO.map (fun t => t.name)).getD MAIN_BRANCH
      let activeLane := (activeO.map (fun t => t.color_index)).getD 0
      walkChain activeName activeLane headO false pt seen

/-- The correction pass: the HEAD node, if present, is re-attributed to the
active timeline. -/
def correctFirst (h : CommitId) (a : TimelineInfo) : List GraphNode → List GraphNode
  | [] => []
  | n :: rest =>
      if n.id = h then
        (if n.timeline ≠ a.name then
           { n with timeline := a.name, lane := a.color_index }
         else n) :: rest
      else n :: correctFirst h a rest

def correctHead (headO : Option CommitId) (activeO : Option TimelineInfo)
    (nodes : List GraphNode) : List GraphNode :=
  match headO, activeO with
  | some h, some a => correctFirst h a nodes
  | _, _ => nodes

/-- Order of graph nodes: timestamp descending (the sort_by call). -/
def nodeGe (a b : GraphNode) : Prop := b.timestamp ≤ a.timestamp

instance : DecidableRel nodeGe := fun _ _ => by unfold nodeGe; infer_instance

instance : IsTotal GraphNode nodeGe := ⟨fun a b => le_total b.timestamp a.timestamp⟩

instance : IsTrans GraphNode nodeGe := ⟨fun _ _ _ h1 h2 => le_trans h2 h1⟩

/-- get_timeline_graph: walk all timelines, then the prev-tip chain, apply
the head-attribution correction and sort by timestamp descending. -/
def get_timeline_graph (s : RepoState) : List GraphNode :=
  let tls := list_timelines s
  let headO := head_commit s
  let activeO := tls.find? (fun t => t.is_active)
  let w := walkTimelines s headO tls []
  let p := prevTipNodes s headO activeO w.2
  let nodes := w.1 ++ p.1
  List.insertionSort nodeGe (correctHead headO activeO nodes)

/-- Well-formedness of one stored commit: nonempty chain, canonical tree
object, parent also stored. -/
def commitOkB (commits : List CommitId) (c : CommitId) : Bool :=
  match c with
  | [] => false
  | d :: t => canonicalTree d.tree && isDirB d.tree && (t.isEmpty || t ∈ commits)

/-- Well-formedness of a repository state: every stored commit is valid and
parent-closed, every ref and marker points at a stored commit, the stash
holds a canonical tree, ref names are unique. -/
def wfState (s : RepoState) : Bool :=
  s.commits.all (fun c => commitOkB s.commits c) &&
  s.refs.all (fun r => r.2 ∈ s.commits) &&
  (match s.head with
   | .detached id => id ∈ s.commits
   | .branch _ => true) &&
  (match s.prevTip with
   | some c => c ∈ s.commits
   | none => true) &&
  (match s.stash with
   | some t => canonicalTree t && isDirB t
   | none => true) &&
  decide ((s.refs.map (fun r => r.1)).Nodup)

/- Concrete states used by the counterexamples and witnesses below. -/

def wdA : Entries := .cons "a.txt" (.file [49]) .nil

def wdB : Entries := .cons "a.txt" (.file [50]) .nil

def wdX : Entries := .cons "a.txt" (.file [120]) .nil

def dataA : CommitData := { tree := buildTree (.dir wdA), message := "v1", timestamp := 1 }

def dataB : CommitData := { tree := buildTree (.dir wdB), message := "v2", timestamp := 2 }

def cA : CommitId := [dataA]

def cB : CommitId := [dataB, dataA]

/-- Two commits on main, HEAD attached to main at the tip. -/
def sTip : RepoState :=
  { workdir := wdB, commits := [cB, cA], refs := [(MAIN_BRANCH, cB)],
    head := .branch MAIN_BRANCH, prevTip := none, stash := none, labels := [] }

/-- The same project rewound to the first commit, with fresh content in the
working directory. -/
def sRew : RepoState :=
  { workdir := wdX, commits := [cB, cA], refs := [(MAIN_BRANCH, cB)],
    head := .detached cA, prevTip := some cB, stash := none, labels := [] }

/-- A rewound project that already owns a fork timeline whose slug collides
with the one commit_snapshot derives at now = 0. -/
def sC1 : RepoState :=
  { workdir := wdX, commits := [cB, cA],
    refs := [(MAIN_BRANCH, cB), (TIMELINE_NS ++ "fork-000000", cB)],
    head := .detached cA, prevTip := some cB, stash := none,
    labels := [("fork-000000", "Old fork")] }

def dataM : CommitData := { tree := buildTree (.dir wdB), message := "m1", timestamp := 1 }

def dataF0 : CommitData := { tree := buildTree (.dir wdA), message := "f0", timestamp := 1 }

def dataF1 : CommitData := { tree := buildTree (.dir wdB), message := "f1", timestamp := 2 }

def cM : CommitId := [dataM]

def cF1 : CommitId := [dataF0]

def cF2 : CommitId := [dataF1, dataF0]

/-- A project whose active timeline is the fork timeline foo, with main
pointing elsewhere. -/
def sC2 : RepoState :=
  { workdir := wdB, commits := [cM, cF2, cF1],
    refs := [(MAIN_BRANCH, cM), (TIMELINE_NS ++ "foo", cF2)],
    head := .branch (TIMELINE_NS ++ "foo"), prevTip := none, stash := none,
    labels := [("foo", "Foo")] }

/-- A parseable commit id that is absent from the object database. -/
def cGhost : CommitId :=
  [{ tree := buildTree (.dir wdX), message := "ghost", timestamp := 9 }]

/-- sTip with an extra timeline whose slug is foo. -/
def sC8 : RepoState :=
  { workdir := wdB, commits := [cB, cA],
    refs := [(MAIN_BRANCH, cB), (TIMELINE_NS ++ "foo", cA)],
    head := .branch MAIN_BRANCH, prevTip := none, stash := none,
    labels := [("foo", "Foo")] }

/-- A project whose HEAD is detached at a commit no timeline ref can reach
(the timeline it was made on was deleted): main points at the first commit
only. -/
def sC9 : RepoState :=
  { workdir := wdB, commits := [cB, cA], refs := [(MAIN_BRANCH, cA)],
    head := .detached cB, prevTip := none, stash := none, labels := [] }

/-- A freshly initialised project: HEAD attached to the unborn main branch,
no commits, no refs. -/
def sInit : RepoState :=
  { workdir := wdA, commits := [], refs := [], head := .branch MAIN_BRANCH,
    prevTip := none, stash := none, labels := [] }

/-- sTip with a stashed tree. -/
def sStash : RepoState :=
  { workdir := wdB, commits := [cB, cA], refs := [(MAIN_BRANCH, cB)],
    head := .branch MAIN_BRANCH, prevTip := none,
    stash := some (buildTree (.dir wdX)), labels := [] }

def wd7a : Entries := .cons "a.txt" (.file [49]) (.cons "b.txt" (.file [50]) .nil)

def wd7b : Entries := .cons "b.txt" (.file [50]) (.cons "a.txt" (.file [49]) .nil)

/-- Two states that differ only in the enumeration order of the working
directory. -/
def s7a : RepoState :=
  { workdir := wd7a, commits := [cB, cA], refs := [(MAIN_BRANCH, cB)],
    head := .branch MAIN_BRANCH, prevTip := none, stash := none, labels := [] }

def s7b : RepoState :=
  { workdir := wd7b, commits := [cB, cA], refs := [(MAIN_BRANCH, cB)],
    head := .branch MAIN_BRANCH, prevTip := none, stash := none, labels := [] }


def dataC : CommitData := { tree := buildTree (.dir wdX), message := "v3", timestamp := 3 }

def cC : CommitId := [dataC, dataB, dataA]

/-- Three commits on main, rewound from the tip cC down to cB: prevTip is
already set. -/
def sRew3 : RepoState :=
  { workdir := wdB, commits := [cC, cB, cA], refs := [(MAIN_BRANCH, cC)],
    head := .detached cB, prevTip := some cC, stash := none, labels := [] }


/- Extraction lemmas for wfState. -/

theorem wf_parts {s : RepoState} (hw : wfState s = true) :
    (∀ c ∈ s.commits, commitOkB s.commits c = true) ∧
    (∀ r ∈ s.refs, r.2 ∈ s.commits) ∧
    (∀ id, s.head = .detached id → id ∈ s.commits) ∧
    (∀ c, s.prevTip = some c → c ∈ s.commits) ∧
    (∀ t, s.stash = some t → canonicalTree t = true ∧ isDirB t = true) ∧
    (s.refs.map (fun r => r.1)).Nodup := by
  unfold wfState at hw
  simp only [Bool.and_eq_true] at hw
  obtain ⟨⟨⟨⟨⟨h1, h2⟩, h3⟩, h4⟩, h5⟩, h6⟩ := hw
  refine ⟨?_, ?_, ?_, ?_, ?_, ?_⟩
  · intro c hc
    exact List.all_eq_true.1 h1 c hc
  · intro r hr
    have := List.all_eq_true.1 h2 r hr
    simpa using this
  · intro id hid
    rw [hid] at h3
    simpa using h3
  · intro c hc
    rw [hc] at h4
    simpa using h4
  · intro t ht
    rw [ht] at h5
    simpa [Bool.and_eq_true] using h5
  · simpa using h6

theorem wf_commit_ne {s : RepoState} (hw : wfState s = true) {c : CommitId}
    (hc : c ∈ s.commits) : c ≠ [] := by
  intro h
  subst h
  have h0 := (wf_parts hw).1 [] hc
  simp only [commitOkB] at h0
  exact Bool.false_ne_true h0

theorem wf_commit_head {s : RepoState} (hw : wfState s = true) {d : CommitData}
    {t : List CommitData} (hc : (d :: t) ∈ s.commits) :
    canonicalTree d.tree = true ∧ isDirB d.tree = true ∧ (t = [] ∨ t ∈ s.commits) := by
  have h0 := (wf_parts hw).1 (d :: t) hc
  simp only [commitOkB, Bool.and_eq_true, Bool.or_eq_true, List.isEmpty_iff,
    decide_eq_true_eq] at h0
  exact ⟨h0.1.1, h0.1.2, h0.2⟩

theorem wf_suffix_mem {s : RepoState} (hw : wfState s = true) :
    ∀ (c : CommitId), c ∈ s.commits → ∀ u, u ≠ [] → u <:+ c → u ∈ s.commits
  | [], hc, u, hu, hsuf => by
      rw [List.suffix_nil.1 hsuf] at hu
      exact absurd rfl hu
  | d :: t, hc, u, hu, hsuf => by
      rcases List.suffix_cons_iff.1 hsuf with h | h
      · rwa [h]
      · have ht : t ≠ [] := by
          intro h0
          rw [h0] at h
          rw [List.suffix_nil.1 h] at hu
          exact absurd rfl hu
        have htm : t ∈ s.commits := ((wf_commit_head hw hc).2.2).resolve_left ht
        exact wf_suffix_mem hw t htm u hu h

/- Lookup and update lemmas for name-keyed file maps. -/

theorem lookupRef_mem : ∀ {refs : List (String × CommitId)} {n : String} {c : CommitId},
    lookupRef refs n = some c → (n, c) ∈ refs := by
  intro refs
  induction refs with
  | nil => intro n c h; simp [lookupRef] at h
  | cons r t ih =>
      intro n c h
      obtain ⟨r1, r2⟩ := r
      by_cases hr : r1 == n
      · simp only [lookupRef, hr, if_pos] at h
        cases h
        have hr1 : r1 = n := by simpa using hr
        subst hr1
        exact List.mem_cons_self _ _
      · simp only [lookupRef, hr, if_neg, if_false] at h
        exact List.mem_cons_of_mem _ (ih h)

theorem wf_lookupRef {s : RepoState} (hw : wfState s = true) {n : String} {c : CommitId}
    (h : lookupRef s.refs n = some c) : c ∈ s.commits :=
  (wf_parts hw).2.1 (n, c) (lookupRef_mem h)

theorem head_commit_mem {s : RepoState} {c : CommitId}
    (h : head_commit s = some c) : c ∈ s.commits := by
  unfold head_commit at h
  cases hh : s.head with
  | branch n =>
      rw [hh] at h
      dsimp only at h
      cases hl : lookupRef s.refs n with
      | none => rw [hl] at h; exact absurd h (by simp)
      | some c0 =>
          rw [hl] at h
          dsimp only at h
          by_cases hm : c0 ∈ s.commits
          · rw [if_pos hm] at h
            cases h
            exact hm
          · rw [if_neg hm] at h
            exact absurd h (by simp)
  | detached id =>
      rw [hh] at h
      dsimp only at h
      by_cases hm : id ∈ s.commits
      · rw [if_pos hm] at h
        cases h
        exact hm
      · rw [if_neg hm] at h
        exact absurd h (by simp)

theorem wf_prevTip_mem {s : RepoState} (hw : wfState s = true) {c : CommitId}
    (h : s.prevTip = some c) : c ∈ s.commits :=
  (wf_parts hw).2.2.2.1 c h

theorem lookupRef_setRef_self : ∀ (l : List (String × CommitId)) (n : String) (c : CommitId),
    lookupRef (setRef l n c) n = some c
  | [], n, c => by simp [setRef, lookupRef]
  | r :: t, n, c => by
      by_cases hr : r.1 == n
      · simp [setRef, hr, lookupRef]
      · simp [setRef, hr, lookupRef, lookupRef_setRef_self t n c]

theorem lookupRef_setRef_ne : ∀ (l : List (String × CommitId)) {m n : String} (c : CommitId),
    m ≠ n → lookupRef (setRef l n c) m = lookupRef l m
  | [], m, n, c, h => by
      simp only [setRef, lookupRef]
      rw [if_neg (by simpa using fun hx : n = m => h hx.symm)]
  | r :: t, m, n, c, h => by
      by_cases hr : r.1 == n
      · have hrn : r.1 = n := by simpa using hr
        simp only [setRef, hr, if_pos, lookupRef]
        rw [if_neg (by simpa using fun hx : n = m => h hx.symm),
          if_neg (by rw [hrn]; simpa using fun hx : n = m => h hx.symm)]
      · simp only [setRef, hr, if_neg, if_false, lookupRef]
        by_cases hrm : r.1 == m
        · simp [hrm]
        · rw [if_neg (by simpa using hrm), if_neg (by simpa using hrm)]
          exact lookupRef_setRef_ne t c h

theorem lookupRef_append_ne : ∀ (l : List (String × CommitId)) {m n : String} (c : CommitId),
    m ≠ n → lookupRef (l ++ [(n, c)]) m = lookupRef l m
  | [], m, n, c, h => by
      simp only [List.nil_append, lookupRef]
      rw [if_neg (by simpa using fun hx : n = m => h hx.symm)]
  | r :: t, m, n, c, h => by
      simp only [List.cons_append, lookupRef]
      by_cases hrm : r.1 == m
      · simp [hrm]
      · rw [if_neg (by simpa using hrm), if_neg (by simpa using hrm)]
        exact lookupRef_append_ne t c h

theorem lookupRef_append_self : ∀ (l : List (String × CommitId)) {n : String} (c : CommitId),
    lookupRef l n = none → lookupRef (l ++ [(n, c)]) n = some c
  | [], n, c, _ => by simp [lookupRef]
  | r :: t, n, c, h => by
      simp only [lookupRef] at h
      by_cases hrn : r.1 == n
      · simp [hrn] at h
      · simp only [List.cons_append, lookupRef]
        rw [if_neg (by simpa using hrn)] at *
        exact lookupRef_append_self t c h

theorem mem_insertCommit_self (c : CommitId) (l : List CommitId) : c ∈ insertCommit c l := by
  unfold insertCommit
  by_cases h : c ∈ l
  · rwa [if_pos h]
  · rw [if_neg h]
    exact List.mem_cons_self _ _

theorem mem_insertCommit_of_mem {x c : CommitId} {l : List CommitId} (h : x ∈ l) :
    x ∈ insertCommit c l := by
  unfold insertCommit
  by_cases hc : c ∈ l
  · rwa [if_pos hc]
  · rw [if_neg hc]
    exact List.mem_cons_of_mem _ h

theorem isAncestor_iff_suffix : ∀ (a c : CommitId),
    isAncestor a c = true ↔ (a ≠ [] ∧ a <:+ c)
  | a, [] => by
      simp only [isAncestor]
      constructor
      · intro h; exact absurd h (by simp)
      · rintro ⟨hne, hsuf⟩
        exact absurd (List.suffix_nil.1 hsuf) hne
  | a, d :: t => by
      simp only [isAncestor]
      by_cases h : a = d :: t
      · subst h
        simp [List.suffix_refl]
      · rw [if_neg h]
        rw [isAncestor_iff_suffix a t]
        constructor
        · rintro ⟨hne, hsuf⟩
          exact ⟨hne, List.suffix_cons_iff.2 (Or.inr hsuf)⟩
        · rintro ⟨hne, hsuf⟩
          rcases List.suffix_cons_iff.1 hsuf with h0 | h0
          · exact absurd h0 h
          · exact ⟨hne, h0⟩

theorem is_ancestorE_eq {s : RepoState} (hw : wfState s = true) (a : CommitId) :
    ∀ (c : CommitId), c ∈ s.commits → is_ancestorE s a c = .ok (isAncestor a c)
  | [], _ => rfl
  | d :: t, hc => by
      simp only [is_ancestorE, isAncestor]
      by_cases h : a = d :: t
      · simp [h]
      · rw [if_neg h, if_neg h, if_pos hc]
        cases ht : t with
        | nil => simp [is_ancestorE, isAncestor]
        | cons d2 t2 =>
            rw [← ht]
            have htm : t ∈ s.commits := by
              have := (wf_commit_head hw hc).2.2
              rcases this with h0 | h0
              · rw [h0] at ht; cases ht
              · exact h0
            exact is_ancestorE_eq hw a t htm

theorem isAncestor_false_of_not_mem {s : RepoState} (hw : wfState s = true)
    {a c : CommitId} (hc : c ∈ s.commits) (ha : a ∉ s.commits) :
    isAncestor a c = false := by
  by_contra h
  rw [Bool.not_eq_false] at h
  obtain ⟨hne, hsuf⟩ := (isAncestor_iff_suffix a c).1 h
  exact ha (wf_suffix_mem hw c hc a hne hsuf)

theorem parentOf_mkCommit (tree : Fs) (m : String) (now : Int) {p : CommitId}
    (hp : p ≠ []) : parentOf (mkCommit tree m now (some p)) = some p := by
  simp [mkCommit, parentOf, hp]

/- Length bookkeeping for list_timelines. -/

theorem length_markActive (p : TimelineInfo → Bool) :
    ∀ (l : List TimelineInfo), (markActive p l).length = l.length
  | [] => rfl
  | t :: rest => by
      simp only [markActive]
      by_cases h : p t
      · simp [h]
      · simp [h, length_markActive p rest]

theorem length_withColors (l : List TimelineInfo) : (withColors l).length = l.length := by
  unfold withColors
  rw [List.length_map, List.enum_length]

theorem length_fixupActive (s : RepoState) (tls : List TimelineInfo) :
    (fixupActive s tls).length = tls.length := by
  unfold fixupActive
  by_cases h1 : ((activeBranchName s).isNone && !(tls.any (fun t => t.is_active))) = true
  · rw [if_pos h1]
    cases hh : head_commit s with
    | none => rfl
    | some h =>
        dsimp only
        split
        · exact length_markActive _ tls
        · exact length_markActive _ tls
  · rw [if_neg h1]

theorem length_legacyMain (s : RepoState) (tls : List TimelineInfo) :
    (legacyMain s tls).length =
      if tls.isEmpty then (if (head_commit s).isSome then 1 else 0) else tls.length := by
  unfold legacyMain
  by_cases he : tls.isEmpty
  · rw [if_pos he, if_pos he]
    cases head_commit s <;> simp
  · rw [if_neg he, if_neg he]

theorem length_mainTimeline (s : RepoState) :
    (mainTimeline s).length = if (lookupRef s.refs MAIN_BRANCH).isSome then 1 else 0 := by
  unfold mainTimeline
  cases lookupRef s.refs MAIN_BRANCH <;> simp

theorem length_tlTimelines (s : RepoState) :
    (tlTimelines s).length = (s.refs.filter (fun r => strStarts TIMELINE_NS r.1)).length := by
  unfold tlTimelines timelineRefs
  rw [List.length_map, List.length_insertionSort]

theorem list_timelines_length (s : RepoState) :
    (list_timelines s).length =
      (let base := (if (lookupRef s.refs MAIN_BRANCH).isSome then 1 else 0) +
          (s.refs.filter (fun r => strStarts TIMELINE_NS r.1)).length
       if base = 0 then (if (head_commit s).isSome then 1 else 0) else base) := by
  unfold list_timelines
  rw [length_fixupActive, length_legacyMain]
  have hlen : (withColors (mainTimeline s ++ tlTimelines s)).length =
      (if (lookupRef s.refs MAIN_BRANCH).isSome then 1 else 0) +
        (s.refs.filter (fun r => strStarts TIMELINE_NS r.1)).length := by
    rw [length_withColors, List.length_append, length_mainTimeline, length_tlTimelines]
  dsimp only
  by_cases he : (withColors (mainTimeline s ++ tlTimelines s)).isEmpty = true
  · rw [if_pos he]
    have hb : (if (lookupRef s.refs MAIN_BRANCH).isSome then 1 else 0) +
        (s.refs.filter (fun r => strStarts TIMELINE_NS r.1)).length = 0 := by
      rw [← hlen]
      exact List.isEmpty_iff_length_eq_zero.1 he
    rw [if_pos hb]
  · rw [if_neg he]
    have hb : ¬((if (lookupRef s.refs MAIN_BRANCH).isSome then 1 else 0) +
        (s.refs.filter (fun r => strStarts TIMELINE_NS r.1)).length = 0) := by
      intro h0
      exact he (List.isEmpty_iff_length_eq_zero.2 (by rw [hlen]; exact h0))
    rw [if_neg hb]
    exact hlen

/- countP bookkeeping for ref-table updates. -/

theorem countP_setRef (q : String × CommitId → Bool)
    (hq : ∀ a b b', q (a, b) = q (a, b')) :
    ∀ (l : List (String × CommitId)) (n : String) (c : CommitId),
      (setRef l n c).countP q =
        if (lookupRef l n).isSome then l.countP q
        else l.countP q + (if q (n, c) then 1 else 0)
  | [], n, c => by
      simp [setRef, lookupRef, List.countP_cons]
  | r :: t, n, c => by
      obtain ⟨r1, r2⟩ := r
      by_cases hr : (r1 == n) = true
      · have hr1 : r1 = n := by simpa using hr
        subst hr1
        simp only [setRef, hr, if_pos, lookupRef, Option.isSome_some, if_true,
          List.countP_cons]
        rw [hq r1 c r2]
      · have hr' : (r1 == n) = false := by simpa using hr
        simp only [setRef, hr', Bool.false_eq_true, if_false, lookupRef, List.countP_cons]
        rw [countP_setRef q hq t n c]
        by_cases hl : (lookupRef t n).isSome
        · simp [hl]
        · simp only [hl, if_neg, if_false]
          by_cases hq2 : q (r1, r2) <;> by_cases hq3 : q (n, c) <;> simp [hq2, hq3]

theorem commit_snapshot_id (s : RepoState) (m : String) (fl : Option String) (now : Int)
    {r : RepoState} {id : CommitId} (h : commit_snapshot s m fl now = .ok (r, id)) :
    id = mkCommit (buildTree (.dir s.workdir)) m now (head_commit s) := by
  unfold commit_snapshot at h
  cases hpt : s.prevTip with
  | none =>
      rw [hpt] at h
      simp only [Except.ok.injEq, Prod.mk.injEq] at h
      exact h.2.symm
  | some pt =>
      rw [hpt] at h
      simp only [Except.ok.injEq, Prod.mk.injEq] at h
      exact h.2.symm

/-- Claim C5: pop_stash with a full slot overwrites the working directory
with the stashed tree (rebuilding a tree from the resulting working
directory gives back exactly the stashed tree id), clears the slot and
returns true; with an empty slot it returns false and changes nothing. -/
theorem c5_pop_stash (s : RepoState) (hw : wfState s = true) :
    (∀ t, s.stash = some t →
        (pop_stash s).2 = true ∧ (pop_stash s).1.stash = none ∧
        buildTree (.dir (pop_stash s).1.workdir) = t) ∧
    (s.stash = none → pop_stash s = (s, false)) := by
  constructor
  · intro t ht
    have hcan := (wf_parts hw).2.2.2.2.1 t ht
    unfold pop_stash
    rw [ht]
    dsimp only [checkoutTree]
    exact ⟨rfl, rfl, buildTree_roundtrip t s.workdir hcan.1 hcan.2⟩
  · intro ht
    unfold pop_stash
    rw [ht]

theorem c5_pop_stash_witness :
    wfState sStash = true ∧ sStash.stash = some (buildTree (.dir wdX)) ∧
    ((pop_stash sStash).2 = true ∧ (pop_stash sStash).1.stash = none ∧
      buildTree (.dir (pop_stash sStash).1.workdir) = buildTree (.dir wdX)) :=
  ⟨by decide, by decide,
    (c5_pop_stash sStash (by decide)).1 (buildTree (.dir wdX)) (by decide)⟩

/-- Claim C6: checking a stored commit out (clean the non-hidden working
directory, write the commit tree) and then building a tree from the
resulting working directory yields exactly that commit's tree id. -/
theorem c6_checkout_roundtrip (s : RepoState) (d : CommitData) (rest : List CommitData)
    (hw : wfState s = true) (hc : (d :: rest) ∈ s.commits) :
    ∃ s', checkout_version s (.valid (d :: rest)) = .ok s' ∧
      buildTree (.dir s'.workdir) = d.tree := by
  have hcan := wf_commit_head hw hc
  unfold checkout_version
  dsimp only
  rw [if_pos hc]
  exact ⟨_, rfl, buildTree_roundtrip d.tree s.workdir hcan.1 hcan.2.1⟩

theorem c6_checkout_roundtrip_witness :
    wfState sTip = true ∧ (dataA :: ([] : List CommitData)) ∈ sTip.commits ∧
    (∃ s', checkout_version sTip (.valid (dataA :: [])) = .ok s' ∧
      buildTree (.dir s'.workdir) = dataA.tree) :=
  ⟨by decide, by decide, c6_checkout_roundtrip sTip dataA [] (by decide) (by decide)⟩

/-- Claim C7: content addressing is deterministic.  Building a tree from the
same directory content (the same named children, in any enumeration order)
yields the same tree id, and committing with the same message, fork label,
timestamp and parent yields the same commit id. -/
theorem c7_determinism (s1 s2 : RepoState) (m : String) (fl : Option String) (now : Int)
    (hp : (toListE s1.workdir).Perm (toListE s2.workdir))
    (hk : ((toListE s1.workdir).map entryKey).Nodup)
    (hh : head_commit s1 = head_commit s2) :
    buildTree (.dir s1.workdir) = buildTree (.dir s2.workdir) ∧
    (∀ r1 r2 id1 id2, commit_snapshot s1 m fl now = .ok (r1, id1) →
        commit_snapshot s2 m fl now = .ok (r2, id2) → id1 = id2) := by
  have htree := buildTree_perm s1.workdir s2.workdir hp hk
  refine ⟨htree, ?_⟩
  intro r1 r2 id1 id2 h1 h2
  rw [commit_snapshot_id s1 m fl now h1, commit_snapshot_id s2 m fl now h2, htree, hh]

theorem c7_determinism_witness :
    (toListE s7a.workdir).Perm (toListE s7b.workdir) ∧
    ((toListE s7a.workdir).map entryKey).Nodup ∧
    head_commit s7a = head_commit s7b ∧
    buildTree (.dir s7a.workdir) = buildTree (.dir s7b.workdir) := by
  have h := c7_determinism s7a s7b "m" none 0 (by decide) (by decide) (by decide)
  exact ⟨by decide, by decide, by decide, h.1⟩

theorem advanceHead_branch {s : RepoState} {b : String} (h : s.head = .branch b)
    (c : CommitId) : advanceHead s c = { s with refs := setRef s.refs b c } := by
  unfold advanceHead
  rw [h]

theorem advanceHead_detached {s : RepoState} {id : CommitId} (h : s.head = .detached id)
    (c : CommitId) : advanceHead s c = { s with head := .detached c } := by
  unfold advanceHead
  rw [h]

theorem main_ne_timeline (x : String) : MAIN_BRANCH ≠ TIMELINE_NS ++ x := by
  intro h
  have hd := congrArg String.data h
  rw [String.data_append] at hd
  simp [MAIN_BRANCH, TIMELINE_NS] at hd

/-- Claim C2 (amended): a commit made while rewound always resets the main
ref to the saved prev tip, regardless of which timeline was active when the
rewind began; refs other than main, the new fork ref and the branch HEAD is
attached to are untouched. -/
theorem c2_main_reset (s : RepoState) (pt : CommitId) (m : String) (fl : Option String)
    (now : Int) (hpt : s.prevTip = some pt) :
    ∃ s' nid, commit_snapshot s m fl now = .ok (s', nid) ∧
      lookupRef s'.refs MAIN_BRANCH = some pt ∧
      (∀ n, n ≠ MAIN_BRANCH → n ≠ TIMELINE_NS ++ ("fork-" ++ formatHHMMSS now) →
        (∀ b, s.head = .branch b → n ≠ b) →
        lookupRef s'.refs n = lookupRef s.refs n) := by
  unfold commit_snapshot
  rw [hpt]
  refine ⟨_, _, rfl, ?_, ?_⟩
  · exact lookupRef_setRef_self _ _ _
  · intro n hn1 hn2 hn3
    rw [lookupRef_setRef_ne _ _ hn1]
    by_cases hcol : (lookupRef
        { advanceHead s (mkCommit (buildTree (.dir s.workdir)) m now (head_commit s)) with
          commits := insertCommit (mkCommit (buildTree (.dir s.workdir)) m now
            (head_commit s)) s.commits }.refs
        (TIMELINE_NS ++ ("fork-" ++ formatHHMMSS now))).isSome
    · rw [if_pos hcol]
      cases hh : s.head with
      | branch b =>
          rw [advanceHead_branch hh]
          exact lookupRef_setRef_ne _ _ (hn3 b hh)
      | detached id =>
          rw [advanceHead_detached hh]
    · rw [if_neg hcol]
      rw [lookupRef_append_ne _ _ hn2]
      cases hh : s.head with
      | branch b =>
          rw [advanceHead_branch hh]
          exact lookupRef_setRef_ne _ _ (hn3 b hh)
      | detached id =>
          rw [advanceHead_detached hh]

/-- Claim C2 counterexample: in a project whose ACTIVE timeline at rewind
time is the fork timeline foo (tip cF2, saved as prev tip), committing new
work resets MAIN to the saved prev tip (main moves from cM to cF2), not the
previously active timeline's ref. -/
theorem c2_counterexample :
    wfState sC2 = true ∧
    activeBranchName sC2 = some (TIMELINE_NS ++ "foo") ∧
    lookupRef sC2.refs MAIN_BRANCH = some cM ∧
    ((navigate_to_snapshot sC2 (.valid cF1)).toOption.bind (fun s1 =>
        if s1.prevTip = some cF2 then
          (commit_snapshot s1 "x" none 0).toOption.map (fun p =>
            (lookupRef p.1.refs MAIN_BRANCH, lookupRef p.1.refs (TIMELINE_NS ++ "foo")))
        else none)) = some (some cF2, some cF2) ∧
    cM ≠ cF2 := by decide

theorem c2_main_reset_witness :
    sRew.prevTip = some cB ∧
    (∃ s' nid, commit_snapshot sRew "m" none 0 = .ok (s', nid) ∧
      lookupRef s'.refs MAIN_BRANCH = some cB ∧
      (∀ n, n ≠ MAIN_BRANCH → n ≠ TIMELINE_NS ++ ("fork-" ++ formatHHMMSS 0) →
        (∀ b, sRew.head = .branch b → n ≠ b) →
        lookupRef s'.refs n = lookupRef sRew.refs n)) :=
  ⟨by decide, c2_main_reset sRew cB "m" none 0 (by decide)⟩

theorem listStarts_append_self : ∀ (l m : List Char), listStarts l (l ++ m) = true
  | [], _ => rfl
  | a :: as, m => by simp [listStarts, listStarts_append_self as m]

theorem strStarts_append_self (p x : String) : strStarts p (p ++ x) = true := by
  unfold strStarts
  rw [String.data_append]
  exact listStarts_append_self p.data x.data

theorem commit_snapshot_fork_detached (wd : Entries) (cms : List CommitId)
    (rfs : List (String × CommitId)) (c pt : CommitId) (st : Option Fs)
    (lb : List (String × String)) (m : String) (fl : Option String) (now : Int)
    (hfresh : lookupRef rfs (TIMELINE_NS ++ ("fork-" ++ formatHHMMSS now)) = none) :
    commit_snapshot ⟨wd, cms, rfs, .detached c, some pt, st, lb⟩ m fl now =
      .ok (
        { workdir := wd,
          commits := insertCommit (mkCommit (buildTree (.dir wd)) m now
            (head_commit ⟨wd, cms, rfs, .detached c, some pt, st, lb⟩)) cms,
          refs := setRef (rfs ++ [(TIMELINE_NS ++ ("fork-" ++ formatHHMMSS now),
            mkCommit (buildTree (.dir wd)) m now
              (head_commit ⟨wd, cms, rfs, .detached c, some pt, st, lb⟩))]) MAIN_BRANCH pt,
          head := .branch (TIMELINE_NS ++ ("fork-" ++ formatHHMMSS now)),
          prevTip := none,
          stash := st,
          labels := setLabel lb ("fork-" ++ formatHHMMSS now)
            (match fl with
             | some l => if trimStr l ≠ "" then trimStr l else "New direction"
             | none => "New direction") },
        mkCommit (buildTree (.dir wd)) m now
          (head_commit ⟨wd, cms, rfs, .detached c, some pt, st, lb⟩)) := by
  unfold commit_snapshot
  dsimp only [advanceHead]
  rw [hfresh]
  rfl

theorem length_from_parts (s s' : RepoState)
    (hm : (lookupRef s.refs MAIN_BRANCH).isSome = true)
    (hm' : (lookupRef s'.refs MAIN_BRANCH).isSome = true)
    (hT : (s'.refs.filter (fun r => strStarts TIMELINE_NS r.1)).length =
      (s.refs.filter (fun r => strStarts TIMELINE_NS r.1)).length + 1) :
    (list_timelines s').length = (list_timelines s).length + 1 := by
  rw [list_timelines_length, list_timelines_length]
  dsimp only
  rw [hm, hm', hT]
  simp only [if_true]
  generalize (List.filter (fun r => strStarts TIMELINE_NS r.1) s.refs).length = L
  split_ifs <;> omega

theorem commit_snapshot_fork_branch (wd : Entries) (cms : List CommitId)
    (rfs : List (String × CommitId)) (b : String) (pt : CommitId) (st : Option Fs)
    (lb : List (String × String)) (m : String) (fl : Option String) (now : Int)
    (hfork1 : lookupRef (setRef rfs b (mkCommit (buildTree (.dir wd)) m now
        (head_commit ⟨wd, cms, rfs, .branch b, some pt, st, lb⟩)))
      (TIMELINE_NS ++ ("fork-" ++ formatHHMMSS now)) = none) :
    commit_snapshot ⟨wd, cms, rfs, .branch b, some pt, st, lb⟩ m fl now =
      .ok (
        { workdir := wd,
          commits := insertCommit (mkCommit (buildTree (.dir wd)) m now
            (head_commit ⟨wd, cms, rfs, .branch b, some pt, st, lb⟩)) cms,
          refs := setRef (setRef rfs b (mkCommit (buildTree (.dir wd)) m now
              (head_commit ⟨wd, cms, rfs, .branch b, some pt, st, lb⟩)) ++
            [(TIMELINE_NS ++ ("fork-" ++ formatHHMMSS now),
              mkCommit (buildTree (.dir wd)) m now
                (head_commit ⟨wd, cms, rfs, .branch b, some pt, st, lb⟩))]) MAIN_BRANCH pt,
          head := .branch (TIMELINE_NS ++ ("fork-" ++ formatHHMMSS now)),
          prevTip := none,
          stash := st,
          labels := setLabel lb ("fork-" ++ formatHHMMSS now)
            (match fl with
             | some l => if trimStr l ≠ "" then trimStr l else "New direction"
             | none => "New direction") },
        mkCommit (buildTree (.dir wd)) m now
          (head_commit ⟨wd, cms, rfs, .branch b, some pt, st, lb⟩)) := by
  unfold commit_snapshot
  dsimp only [advanceHead]
  rw [hfork1]
  rfl

/-- Claim C1 (amended): committing while rewound (prev-tip set, HEAD
resolving to a commit C) in any well-formed state whose main ref exists and
whose attached branch (if HEAD is attached) exists, produces exactly one
new timeline: the fork ref appears pointing at precisely the new commit,
that commit has C as its parent, HEAD attaches to the fork ref, main ends
at the saved prev tip, every ref other than main, the fork ref and the
branch HEAD was attached to is unchanged, and the rewound state is cleared
— PROVIDED the derived fork slug fork-HHMMSS does not collide with an
existing timeline ref. -/
theorem c1_lazy_fork (s : RepoState) (c pt : CommitId) (m : String) (fl : Option String)
    (now : Int) (hw : wfState s = true)
    (hpt : s.prevTip = some pt)
    (hhc : head_commit s = some c)
    (hm : (lookupRef s.refs MAIN_BRANCH).isSome = true)
    (hborn : ∀ b, s.head = .branch b → (lookupRef s.refs b).isSome = true)
    (hfresh : lookupRef s.refs (TIMELINE_NS ++ ("fork-" ++ formatHHMMSS now)) = none) :
    ∃ s' nid, commit_snapshot s m fl now = .ok (s', nid) ∧
      (list_timelines s').length = (list_timelines s).length + 1 ∧
      parentOf nid = some c ∧
      lookupRef s'.refs (TIMELINE_NS ++ ("fork-" ++ formatHHMMSS now)) = some nid ∧
      s'.head = .branch (TIMELINE_NS ++ ("fork-" ++ formatHHMMSS now)) ∧
      lookupRef s'.refs MAIN_BRANCH = some pt ∧
      (∀ n, n ≠ MAIN_BRANCH → n ≠ TIMELINE_NS ++ ("fork-" ++ formatHHMMSS now) →
        s.head ≠ .branch n → lookupRef s'.refs n = lookupRef s.refs n) ∧
      is_rewound s' = false := by
  have hcmem : c ∈ s.commits := head_commit_mem hhc
  have hcne : c ≠ [] := wf_commit_ne hw hcmem
  obtain ⟨wd, cms, rfs, hd, ptp, st, lb⟩ := s
  dsimp only at hpt hhc hm hborn hfresh hcmem ⊢
  subst hpt
  cases hd with
  | detached c0 =>
      have hc0 : c = c0 := by
        unfold head_commit at hhc
        dsimp only at hhc
        by_cases hmm : c0 ∈ cms
        · rw [if_pos hmm] at hhc
          exact (Option.some.inj hhc).symm
        · rw [if_neg hmm] at hhc
          exact absurd hhc (by simp)
      subst hc0
      rw [commit_snapshot_fork_detached wd cms rfs c pt st lb m fl now hfresh]
      refine ⟨_, _, rfl, ?_, ?_, ?_, rfl, ?_, ?_, rfl⟩
      · apply length_from_parts
        · exact hm
        · dsimp only
          rw [lookupRef_setRef_self]
          rfl
        · dsimp only
          rw [← List.countP_eq_length_filter, ← List.countP_eq_length_filter]
          rw [countP_setRef (fun r => strStarts TIMELINE_NS r.1) (fun a b b' => rfl) _ _ _]
          have hma : (lookupRef (rfs ++ [(TIMELINE_NS ++ ("fork-" ++ formatHHMMSS now),
              mkCommit (buildTree (.dir wd)) m now
                (head_commit ⟨wd, cms, rfs, .detached c, some pt, st, lb⟩))])
              MAIN_BRANCH).isSome = true := by
            rw [lookupRef_append_ne _ _ (main_ne_timeline _)]
            exact hm
          rw [if_pos hma, List.countP_append]
          simp [List.countP_cons, strStarts_append_self]
      · rw [hhc]
        exact parentOf_mkCommit _ _ _ hcne
      · dsimp only
        rw [lookupRef_setRef_ne _ _ (Ne.symm (main_ne_timeline _))]
        exact lookupRef_append_self _ _ hfresh
      · dsimp only
        exact lookupRef_setRef_self _ _ _
      · intro n hn1 hn2 _
        dsimp only
        rw [lookupRef_setRef_ne _ _ hn1, lookupRef_append_ne _ _ hn2]
  | branch b =>
      have hbs : (lookupRef rfs b).isSome = true := hborn b rfl
      obtain ⟨cb, hcb⟩ := Option.isSome_iff_exists.1 hbs
      have hcbc : c = cb := by
        unfold head_commit at hhc
        dsimp only at hhc
        rw [hcb] at hhc
        dsimp only at hhc
        by_cases hmm : cb ∈ cms
        · rw [if_pos hmm] at hhc
          exact (Option.some.inj hhc).symm
        · rw [if_neg hmm] at hhc
          exact absurd hhc (by simp)
      subst hcbc
      have hbf : b ≠ TIMELINE_NS ++ ("fork-" ++ formatHHMMSS now) := by
        intro he
        rw [he, hfresh] at hcb
        exact absurd hcb (by simp)
      have hfork1 : lookupRef (setRef rfs b (mkCommit (buildTree (.dir wd)) m now
          (head_commit ⟨wd, cms, rfs, .branch b, some pt, st, lb⟩)))
          (TIMELINE_NS ++ ("fork-" ++ formatHHMMSS now)) = none := by
        rw [lookupRef_setRef_ne _ _ (Ne.symm hbf)]
        exact hfresh
      rw [commit_snapshot_fork_branch wd cms rfs b pt st lb m fl now hfork1]
      refine ⟨_, _, rfl, ?_, ?_, ?_, rfl, ?_, ?_, rfl⟩
      · apply length_from_parts
        · exact hm
        · dsimp only
          rw [lookupRef_setRef_self]
          rfl
        · dsimp only
          rw [← List.countP_eq_length_filter, ← List.countP_eq_length_filter]
          rw [countP_setRef (fun r => strStarts TIMELINE_NS r.1) (fun a b b' => rfl) _ _ _]
          have hma : (lookupRef (setRef rfs b (mkCommit (buildTree (.dir wd)) m now
              (head_commit ⟨wd, cms, rfs, .branch b, some pt, st, lb⟩)) ++
              [(TIMELINE_NS ++ ("fork-" ++ formatHHMMSS now),
                mkCommit (buildTree (.dir wd)) m now
                  (head_commit ⟨wd, cms, rfs, .branch b, some pt, st, lb⟩))])
              MAIN_BRANCH).isSome = true := by
            rw [lookupRef_append_ne _ _ (main_ne_timeline _)]
            by_cases hbm : MAIN_BRANCH = b
            · rw [hbm, lookupRef_setRef_self]
              rfl
            · rw [lookupRef_setRef_ne _ _ hbm]
              exact hm
          rw [if_pos hma, List.countP_append]
          rw [countP_setRef (fun r => strStarts TIMELINE_NS r.1) (fun a b b' => rfl) _ _ _,
            if_pos hbs]
          simp [List.countP_cons, strStarts_append_self]
      · rw [hhc]
        exact parentOf_mkCommit _ _ _ hcne
      · dsimp only
        rw [lookupRef_setRef_ne _ _ (Ne.symm (main_ne_timeline _))]
        exact lookupRef_append_self _ _ hfork1
      · dsimp only
        exact lookupRef_setRef_self _ _ _
      · intro n hn1 hn2 hnh
        have hnb : n ≠ b := by
          intro he
          exact hnh (by rw [he])
        dsimp only
        rw [lookupRef_setRef_ne _ _ hn1, lookupRef_append_ne _ _ hn2,
          lookupRef_setRef_ne _ _ hnb]


/-- Claim C1 counterexample: a rewound project that already has a timeline
named fork-000000; committing at a wall-clock second that derives the same
slug makes the discarded MustNotExist ref creation fail silently, so NO new
timeline appears — list_timelines length is unchanged instead of increasing
by one. -/
theorem c1_counterexample :
    wfState sC1 = true ∧ is_rewound sC1 = true ∧
    head_commit sC1 = some cA ∧ sC1.prevTip = some cB ∧
    isAncestor cA cB = true ∧ cA ≠ cB ∧
    (commit_snapshot sC1 "new work" none 0).toOption.map
      (fun p => ((list_timelines p.1).length, is_rewound p.1)) =
      some ((list_timelines sC1).length, false) := by decide

theorem c1_lazy_fork_witness :
    wfState sRew = true ∧ sRew.prevTip = some cB ∧ head_commit sRew = some cA ∧
    (lookupRef sRew.refs MAIN_BRANCH).isSome = true ∧
    lookupRef sRew.refs (TIMELINE_NS ++ ("fork-" ++ formatHHMMSS 0)) = none ∧
    (∃ s' nid, commit_snapshot sRew "new direction" none 0 = .ok (s', nid) ∧
      (list_timelines s').length = (list_timelines sRew).length + 1 ∧
      parentOf nid = some cA ∧
      lookupRef s'.refs (TIMELINE_NS ++ ("fork-" ++ formatHHMMSS 0)) = some nid ∧
      s'.head = .branch (TIMELINE_NS ++ ("fork-" ++ formatHHMMSS 0)) ∧
      lookupRef s'.refs MAIN_BRANCH = some cB ∧
      (∀ n, n ≠ MAIN_BRANCH → n ≠ TIMELINE_NS ++ ("fork-" ++ formatHHMMSS 0) →
        sRew.head ≠ .branch n → lookupRef s'.refs n = lookupRef sRew.refs n) ∧
      is_rewound s' = false) :=
  ⟨by decide, by decide, by decide, by decide, by decide,
    c1_lazy_fork sRew cA cB "new direction" none 0 (by decide) (by decide) (by decide)
      (by decide) (by intro b hb; simp [sRew] at hb) (by decide)⟩

/-- Claim C8 (amended): create_timeline with an existing source commit and a
label whose normalized slug (lowercased, non-alphanumerics replaced by
dashes, dashes trimmed from the ends) is nonempty and not already in use
creates a ref at that commit under that slug and attaches HEAD to it; a
label normalizing to an ALREADY-USED slug does NOT still produce a timeline
— the call fails with an error, there is no disambiguation. -/
theorem c8_create_timeline (s : RepoState) (c : CommitId) (name : String)
    (hw : wfState s = true) (hc : c ∈ s.commits) :
    (slugify_timeline_name name ≠ "" →
      lookupRef s.refs (TIMELINE_NS ++ slugify_timeline_name name) = none →
      ∃ s', create_timeline s (.valid c) name = .ok s' ∧
        lookupRef s'.refs (TIMELINE_NS ++ slugify_timeline_name name) = some c ∧
        activeBranchName s' = some (TIMELINE_NS ++ slugify_timeline_name name)) ∧
    ((lookupRef s.refs (TIMELINE_NS ++ slugify_timeline_name name)).isSome →
      ∃ msg, create_timeline s (.valid c) name = .error (.git msg)) := by
  constructor
  · intro hslug hfree
    obtain ⟨d, rest, rfl⟩ : ∃ d rest, c = d :: rest := by
      cases c with
      | nil => exact absurd rfl (wf_commit_ne hw hc)
      | cons d rest => exact ⟨d, rest, rfl⟩
    unfold create_timeline
    dsimp only
    rw [if_pos hc, if_neg hslug, if_neg (by rw [hfree]; simp)]
    refine ⟨_, rfl, ?_, rfl⟩
    exact lookupRef_append_self _ _ hfree
  · intro hsome
    unfold create_timeline
    dsimp only
    rw [if_pos hc]
    by_cases hslug : slugify_timeline_name name = ""
    · rw [if_pos hslug]
      exact ⟨_, rfl⟩
    · rw [if_neg hslug, if_pos hsome]
      exact ⟨_, rfl⟩

/-- Claim C8 counterexample: the label Foo normalizes to the slug foo,
which is already in use; create_timeline fails with an error instead of
disambiguating, so no timeline is produced for the label. -/
theorem c8_counterexample :
    wfState sC8 = true ∧ cA ∈ sC8.commits ∧
    slugify_timeline_name "Foo" = "foo" ∧
    (lookupRef sC8.refs (TIMELINE_NS ++ "foo")).isSome = true ∧
    create_timeline sC8 (.valid cA) "Foo" = .error (.git "reference already exists") := by
  decide

theorem c8_create_timeline_witness :
    wfState sTip = true ∧ cA ∈ sTip.commits ∧
    slugify_timeline_name "alt" ≠ "" ∧
    lookupRef sTip.refs (TIMELINE_NS ++ slugify_timeline_name "alt") = none ∧
    (∃ s', create_timeline sTip (.valid cA) "alt" = .ok s' ∧
      lookupRef s'.refs (TIMELINE_NS ++ slugify_timeline_name "alt") = some cA ∧
      activeBranchName s' = some (TIMELINE_NS ++ slugify_timeline_name "alt")) :=
  ⟨by decide, by decide, by decide, by decide,
    (c8_create_timeline sTip cA "alt" (by decide) (by decide)).1 (by decide) (by decide)⟩

theorem list_timelines_length_congr (s1 s2 : RepoState)
    (hm : (lookupRef s1.refs MAIN_BRANCH).isSome = (lookupRef s2.refs MAIN_BRANCH).isSome)
    (hf : (s1.refs.filter (fun r => strStarts TIMELINE_NS r.1)).length =
      (s2.refs.filter (fun r => strStarts TIMELINE_NS r.1)).length)
    (hh : (head_commit s1).isSome = (head_commit s2).isSome) :
    (list_timelines s1).length = (list_timelines s2).length := by
  rw [list_timelines_length, list_timelines_length]
  dsimp only
  rw [hm, hf, hh]

theorem head_commit_isSome_of_branch {s : RepoState} {b : String} {c : CommitId}
    (hh : s.head = .branch b) (hl : lookupRef s.refs b = some c) (hm : c ∈ s.commits) :
    (head_commit s).isSome = true := by
  unfold head_commit
  rw [hh]
  dsimp only
  rw [hl]
  dsimp only
  rw [if_pos hm]
  rfl

theorem head_commit_isSome_of_detached {s : RepoState} {id : CommitId}
    (hh : s.head = .detached id) (hm : id ∈ s.commits) :
    (head_commit s).isSome = true := by
  unfold head_commit
  rw [hh]
  dsimp only
  rw [if_pos hm]
  rfl

theorem advanceHead_fields (s : RepoState) (c : CommitId) :
    (advanceHead s c).labels = s.labels ∧ (advanceHead s c).stash = s.stash ∧
    (advanceHead s c).prevTip = s.prevTip ∧ (advanceHead s c).workdir = s.workdir := by
  unfold advanceHead
  cases s.head <;> exact ⟨rfl, rfl, rfl, rfl⟩

theorem countP_filter_setRef_present (l : List (String × CommitId)) (n : String)
    (c : CommitId) (hsome : (lookupRef l n).isSome = true) :
    ((setRef l n c).filter (fun r => strStarts TIMELINE_NS r.1)).length =
      (l.filter (fun r => strStarts TIMELINE_NS r.1)).length := by
  rw [← List.countP_eq_length_filter, ← List.countP_eq_length_filter]
  rw [countP_setRef (fun r => strStarts TIMELINE_NS r.1) (fun a b b' => rfl) l n c,
    if_pos hsome]

/-- Claim C10 (amended): a commit made while NOT rewound only advances the
ref HEAD is attached to (or moves a detached HEAD); every other timeline
ref, the label table, the stash slot and the prev-tip marker are unchanged;
and as long as the attached branch ref already exists — i.e. this is not
the very first commit on an unborn branch, which creates that ref — no new
timeline appears (the list_timelines length is unchanged). -/
theorem c10_commit_frame (s : RepoState) (m : String) (fl : Option String) (now : Int)
    (hw : wfState s = true) (hnr : s.prevTip = none) :
    ∃ s' nid, commit_snapshot s m fl now = .ok (s', nid) ∧
      s'.labels = s.labels ∧ s'.stash = s.stash ∧ s'.prevTip = none ∧
      s'.workdir = s.workdir ∧
      (∀ b, s.head = .branch b →
        lookupRef s'.refs b = some nid ∧
        (∀ n, n ≠ b → lookupRef s'.refs n = lookupRef s.refs n) ∧
        ((lookupRef s.refs b).isSome = true →
          (list_timelines s').length = (list_timelines s).length)) ∧
      (∀ id0, s.head = .detached id0 →
        s'.refs = s.refs ∧ s'.head = .detached nid ∧
        (list_timelines s').length = (list_timelines s).length) := by
  unfold commit_snapshot
  rw [hnr]
  refine ⟨_, _, rfl, (advanceHead_fields s _).1, (advanceHead_fields s _).2.1,
    (advanceHead_fields s _).2.2.1.trans hnr, (advanceHead_fields s _).2.2.2, ?_, ?_⟩
  · intro b hb
    rw [advanceHead_branch hb]
    refine ⟨lookupRef_setRef_self _ _ _, fun n hn => lookupRef_setRef_ne _ _ hn, ?_⟩
    intro hsome
    obtain ⟨c0, hc0⟩ := Option.isSome_iff_exists.1 hsome
    apply list_timelines_length_congr
    · show (lookupRef (setRef s.refs b _) MAIN_BRANCH).isSome =
        (lookupRef s.refs MAIN_BRANCH).isSome
      by_cases hbm : MAIN_BRANCH = b
      · subst hbm
        rw [lookupRef_setRef_self, hc0]
        rfl
      · rw [lookupRef_setRef_ne _ _ hbm]
    · exact countP_filter_setRef_present s.refs b _ hsome
    · rw [@head_commit_isSome_of_branch s b c0 hb hc0 (wf_lookupRef hw hc0)]
      exact @head_commit_isSome_of_branch _ b _ hb (lookupRef_setRef_self _ _ _)
        (mem_insertCommit_self _ _)
  · intro id0 hid
    rw [advanceHead_detached hid]
    refine ⟨rfl, rfl, ?_⟩
    apply list_timelines_length_congr
    · rfl
    · rfl
    · rw [@head_commit_isSome_of_detached s id0 hid ((wf_parts hw).2.2.1 id0 hid)]
      exact @head_commit_isSome_of_detached _ (mkCommit (buildTree (.dir s.workdir))
        m now (head_commit s)) rfl (mem_insertCommit_self _ _)

/-- Claim C10 counterexample: the very first commit on a freshly initialised
project (HEAD attached to the unborn main branch, no prev-tip) creates the
refs/heads/main ref, so a new timeline DOES appear: list_timelines goes
from empty to one entry. -/
theorem c10_counterexample :
    wfState sInit = true ∧ sInit.prevTip = none ∧
    (list_timelines sInit).length = 0 ∧
    (commit_snapshot sInit "first" none 0).toOption.map
      (fun p => (list_timelines p.1).length) = some 1 := by decide

theorem c10_commit_frame_witness :
    wfState sTip = true ∧ sTip.prevTip = none ∧
    (∃ s' nid, commit_snapshot sTip "save" none 5 = .ok (s', nid) ∧
      s'.labels = sTip.labels ∧ s'.stash = sTip.stash ∧ s'.prevTip = none ∧
      s'.workdir = sTip.workdir ∧
      (∀ b, sTip.head = .branch b →
        lookupRef s'.refs b = some nid ∧
        (∀ n, n ≠ b → lookupRef s'.refs n = lookupRef sTip.refs n) ∧
        ((lookupRef sTip.refs b).isSome = true →
          (list_timelines s').length = (list_timelines sTip).length)) ∧
      (∀ id0, sTip.head = .detached id0 →
        s'.refs = sTip.refs ∧ s'.head = .detached nid ∧
        (list_timelines s').length = (list_timelines sTip).length)) :=
  ⟨by decide, by decide, c10_commit_frame sTip "save" none 5 (by decide) (by decide)⟩

theorem find_attach_none {s : RepoState} (hw : wfState s = true) {t : CommitId}
    (ht : t ∉ s.commits) (tls : List TimelineInfo) :
    tls.find? (fun tl => decide (lookupRef s.refs (refNameOf tl.name) = some t)) = none := by
  apply List.find?_eq_none.2
  intro tl _
  simp only [decide_eq_true_eq]
  intro hlook
  exact ht (wf_lookupRef hw hlook)

theorem checkout_version_ok {s : RepoState} {d : CommitData} {rest : List CommitData}
    (hmem : (d :: rest) ∈ s.commits) :
    checkout_version s (.valid (d :: rest)) = .ok (checkoutTree s d.tree) := by
  unfold checkout_version
  dsimp only
  rw [if_pos hmem]

/-- Claim C3 (amended): navigate_to_snapshot on an unparsable commit id
fails before any mutation, with the state exactly as before; on a parseable
commit id that is ABSENT from the object store, it fails with a not-found
error, leaving every timeline ref, the prev-tip marker, the stash and the
working directory untouched, but HEAD has already been rewritten: it ends
up detached at the absent target id (a partial mutation). -/
theorem c3_navigate_failure (s : RepoState) (hw : wfState s = true) :
    (navigate_to_snapshot s .invalid = .error (.git "invalid commit id", s)) ∧
    (∀ t h, head_commit s = some h → t ∉ s.commits →
      navigate_to_snapshot s (.valid t) =
        .error (.git "commit not found", { s with head := .detached t })) := by
  refine ⟨rfl, ?_⟩
  intro t h hh ht
  have hmemh : h ∈ s.commits := head_commit_mem hh
  have hne : t ≠ h := fun hx => ht (hx ▸ hmemh)
  unfold navigate_to_snapshot
  rw [hh]
  dsimp only
  rw [if_neg hne, is_ancestorE_eq hw t h hmemh,
    isAncestor_false_of_not_mem hw hmemh ht]
  simp only [Bool.false_eq_true, if_false]
  cases hpt : s.prevTip with
  | none =>
      dsimp only
      rw [find_attach_none hw ht]
      dsimp only
      unfold checkout_version
      dsimp only
      rw [if_neg ht]
      dsimp only
      rw [hpt]
  | some pt =>
      dsimp only
      have htp : ¬ t = pt := fun hx => ht (hx ▸ wf_prevTip_mem hw hpt)
      rw [if_neg htp]
      rw [find_attach_none hw ht]
      dsimp only
      unfold checkout_version
      dsimp only
      rw [if_neg ht]
      dsimp only
      rw [hpt]

/-- Claim C3 counterexample: navigating to a parseable but absent commit id
returns an error, but the state it leaves behind differs from the starting
state: HEAD has been detached at the absent id, so the ref/position state
was NOT left exactly as it was (partial mutation). -/
theorem c3_counterexample :
    wfState sTip = true ∧ cGhost ∉ sTip.commits ∧
    navigate_to_snapshot sTip (.valid cGhost) =
      .error (.git "commit not found", { sTip with head := .detached cGhost }) ∧
    ({ sTip with head := Head.detached cGhost } : RepoState) ≠ sTip := by decide

theorem c3_navigate_failure_witness :
    wfState sTip = true ∧ head_commit sTip = some cB ∧ cGhost ∉ sTip.commits ∧
    (navigate_to_snapshot sTip .invalid = .error (.git "invalid commit id", sTip)) ∧
    (navigate_to_snapshot sTip (.valid cGhost) =
      .error (.git "commit not found", { sTip with head := .detached cGhost })) :=
  ⟨by decide, by decide, by decide, (c3_navigate_failure sTip (by decide)).1,
    (c3_navigate_failure sTip (by decide)).2 cGhost cB (by decide) (by decide)⟩

theorem checkout_version_prevTip {S s' : RepoState} {r : RawId}
    (h : checkout_version S r = .ok s') : s'.prevTip = S.prevTip := by
  unfold checkout_version at h
  cases r with
  | invalid => cases h
  | valid oid =>
      dsimp only at h
      by_cases hm : oid ∈ S.commits
      · rw [if_pos hm] at h
        cases oid with
        | nil => cases h
        | cons d rest =>
            cases h
            rfl
      · rw [if_neg hm] at h
        cases h

theorem checkout_version_error {S : RepoState} {oid : CommitId} {e : VersioningError}
    (h : checkout_version S (.valid oid) = .error e) : oid ∉ S.commits ∨ oid = [] := by
  unfold checkout_version at h
  dsimp only at h
  by_cases hm : oid ∈ S.commits
  · rw [if_pos hm] at h
    cases oid with
    | nil => exact Or.inr rfl
    | cons d rest => cases h
  · exact Or.inl hm

theorem navigate_ok_prevTip (s : RepoState) (t h : CommitId) (d : CommitData)
    (rest : List CommitData) (hw : wfState s = true) (hh : head_commit s = some h)
    (hne : t ≠ h) (hdr : t = d :: rest) (hmem : t ∈ s.commits) :
    ∃ s', navigate_to_snapshot s (.valid t) = .ok s' ∧
      s'.prevTip =
        (let saved := if isAncestor t h then some (s.prevTip.getD h) else s.prevTip
         if saved = some t then none else saved) := by
  have hmemh : h ∈ s.commits := head_commit_mem hh
  subst hdr
  unfold navigate_to_snapshot
  rw [hh]
  dsimp only
  rw [if_neg hne, is_ancestorE_eq hw _ h hmemh]
  by_cases hAnc : isAncestor (d :: rest) h = true
  · rw [hAnc]
    simp only [eq_self_iff_true, if_true]
    by_cases hteq : (d :: rest) = s.prevTip.getD h
    · rw [if_pos hteq]
      split
      · rename_i s4 heq
        refine ⟨s4, rfl, ?_⟩
        rw [checkout_version_prevTip heq]
        split <;> simp [hAnc, ← hteq]
      · rename_i e heq
        exfalso
        rcases checkout_version_error heq with hnot | hnil
        · exact hnot (by split <;> exact hmem)
        · simp at hnil
    · rw [if_neg hteq]
      have hne2 : s.prevTip.getD h ≠ d :: rest := fun hx => hteq hx.symm
      split
      · rename_i s4 heq
        refine ⟨s4, rfl, ?_⟩
        rw [checkout_version_prevTip heq]
        split <;> simp [hAnc, hne2]
      · rename_i e heq
        exfalso
        rcases checkout_version_error heq with hnot | hnil
        · exact hnot (by split <;> exact hmem)
        · simp at hnil
  · have hF : isAncestor (d :: rest) h = false := by
      simpa using hAnc
    rw [hF]
    simp only [Bool.false_eq_true, if_false]
    cases hpt : s.prevTip with
    | none =>
        dsimp only
        split
        · rename_i s4 heq
          refine ⟨s4, rfl, ?_⟩
          rw [checkout_version_prevTip heq]
          split <;> simp [hF, hpt]
        · rename_i e heq
          exfalso
          rcases checkout_version_error heq with hnot | hnil
          · exact hnot (by split <;> exact hmem)
          · simp at hnil
    | some pt =>
        dsimp only
        by_cases ht2 : (d :: rest) = pt
        · rw [if_pos ht2]
          split
          · rename_i s4 heq
            refine ⟨s4, rfl, ?_⟩
            rw [checkout_version_prevTip heq]
            split <;> simp [hF, hpt, ht2]
          · rename_i e heq
            exfalso
            rcases checkout_version_error heq with hnot | hnil
            · exact hnot (by split <;> exact hmem)
            · simp at hnil
        · rw [if_neg ht2]
          have hne2 : pt ≠ d :: rest := fun hx => ht2 hx.symm
          split
          · rename_i s4 heq
            refine ⟨s4, rfl, ?_⟩
            rw [checkout_version_prevTip heq]
            split <;> simp [hF, hpt, hne2]
          · rename_i e heq
            exfalso
            rcases checkout_version_error heq with hnot | hnil
            · exact hnot (by split <;> exact hmem)
            · simp at hnil

/-- Claim C4 (amended): the prev-tip lifecycle of navigate_to_snapshot for
a target distinct from the current head: a backward navigation (target a
strict ancestor of head) stores prev_tip = head only when none was stored —
a deeper rewind keeps the original prev_tip — and a navigation whose target
equals the stored prev_tip clears it.  When the target equals BOTH the
current head and the stored prev_tip (reachable by switching timelines
while rewound), the call is the early-return bare checkout and the marker
survives, so the clearing clause requires target distinct from head. -/
theorem c4_prev_tip (s : RepoState) (t h : CommitId) (d : CommitData)
    (rest : List CommitData) (hw : wfState s = true) (hh : head_commit s = some h)
    (hne : t ≠ h) (hdr : t = d :: rest) (hmem : t ∈ s.commits) :
    (isAncestor t h = true → s.prevTip = none →
      ∃ s', navigate_to_snapshot s (.valid t) = .ok s' ∧ s'.prevTip = some h) ∧
    (∀ p, isAncestor t h = true → s.prevTip = some p → t ≠ p →
      ∃ s', navigate_to_snapshot s (.valid t) = .ok s' ∧ s'.prevTip = some p) ∧
    (∀ p, s.prevTip = some p → t = p →
      ∃ s', navigate_to_snapshot s (.valid t) = .ok s' ∧ s'.prevTip = none ∧
        is_rewound s' = false) := by
  obtain ⟨s', hnav, hpt⟩ := navigate_ok_prevTip s t h d rest hw hh hne hdr hmem
  refine ⟨?_, ?_, ?_⟩
  · intro hanc hnone
    refine ⟨s', hnav, ?_⟩
    rw [hpt]
    simp [hanc, hnone, Ne.symm hne]
  · intro p hanc hsome hnep
    refine ⟨s', hnav, ?_⟩
    rw [hpt]
    simp [hanc, hsome, Ne.symm hnep]
  · intro p hsome hteqp
    have hpn : s'.prevTip = none := by
      rw [hpt]
      by_cases hanc : isAncestor t h = true
      · simp [hanc, hsome, hteqp]
      · have hF : isAncestor t h = false := by simpa using hanc
        simp [hF, hsome, hteqp]
    exact ⟨s', hnav, hpn, by simp [is_rewound, hpn]⟩

/-- Claim C4 counterexample: rewind on main (prev tip cB), switch back to
the main timeline (whose tip IS the stored prev tip), then navigate to that
very commit: the target equals the stored prev_tip but the call takes the
target-equals-head early return, so the marker is NOT cleared and
is_rewound stays true. -/
theorem c4_counterexample :
    wfState sTip = true ∧
    ((navigate_to_snapshot sTip (.valid cA)).toOption.bind (fun s1 =>
      (switch_timeline s1 MAIN_BRANCH).toOption.bind (fun s2 =>
        if s2.prevTip = some cB ∧ head_commit s2 = some cB then
          (navigate_to_snapshot s2 (.valid cB)).toOption.map
            (fun s3 => (s3.prevTip, is_rewound s3))
        else none))) = some (some cB, true) := by decide

theorem c4_prev_tip_witness :
    wfState sTip = true ∧ head_commit sTip = some cB ∧ cA ≠ cB ∧ cA ∈ sTip.commits ∧
    isAncestor cA cB = true ∧ sTip.prevTip = none ∧
    (∃ s', navigate_to_snapshot sTip (.valid cA) = .ok s' ∧ s'.prevTip = some cB) :=
  ⟨by decide, by decide, by decide, by decide, by decide, by decide,
    (c4_prev_tip sTip cA cB dataA [] (by decide) (by decide) (by decide) rfl
      (by decide)).1 (by decide) (by decide)⟩

/- Lemmas about the graph walk, leading to claim C9. -/

theorem walkChain_nil (n : String) (l : Nat) (hO : Option CommitId) (mk : Bool)
    (seen : List CommitId) : walkChain n l hO mk [] seen = ([], seen) := rfl

theorem walkChain_cons (n : String) (l : Nat) (hO : Option CommitId) (mk : Bool)
    (d : CommitData) (t : List CommitData) (seen : List CommitId) :
    walkChain n l hO mk (d :: t) seen =
      if (d :: t) ∈ seen then ([], seen)
      else
        ({ id := d :: t, message := trimStr d.message, timestamp := d.timestamp,
           timeline := n,
           parents := match t with | [] => [] | _ :: _ => [t],
           lane := l,
           is_head := mk && decide (hO = some (d :: t)) } ::
            (walkChain n l hO mk t ((d :: t) :: seen)).1,
         (walkChain n l hO mk t ((d :: t) :: seen)).2) := by
  rw [walkChain.eq_def]

theorem walkTimelines_nil (s : RepoState) (hO : Option CommitId) (seen : List CommitId) :
    walkTimelines s hO [] seen = ([], seen) := rfl

theorem walkTimelines_cons (s : RepoState) (hO : Option CommitId) (tl : TimelineInfo)
    (rest : List TimelineInfo) (seen : List CommitId) :
    walkTimelines s hO (tl :: rest) seen =
      match resolveTip s tl with
      | none => walkTimelines s hO rest seen
      | some tip =>
          ((walkChain tl.name tl.color_index hO true tip seen).1 ++
            (walkTimelines s hO rest (walkChain tl.name tl.color_index hO true tip seen).2).1,
           (walkTimelines s hO rest (walkChain tl.name tl.color_index hO true tip seen).2).2) := by
  rw [walkTimelines.eq_def]

theorem isAncestor_length : ∀ {c a : CommitId}, isAncestor a c = true → a.length ≤ c.length := by
  intro c
  induction c with
  | nil => intro a ha; simp [isAncestor] at ha
  | cons d t ih =>
      intro a ha
      rw [isAncestor] at ha
      by_cases he : a = d :: t
      · subst he; exact le_refl _
      · rw [if_neg he] at ha
        exact le_trans (ih ha) (by simp)

theorem walkChain_seen_mono (n : String) (l : Nat) (hO : Option CommitId) (mk : Bool) :
    ∀ (c : CommitId) (seen : List CommitId) (a : CommitId), a ∈ seen →
      a ∈ (walkChain n l hO mk c seen).2 := by
  intro c
  induction c with
  | nil => intro seen a ha; simpa [walkChain_nil] using ha
  | cons d t ih =>
      intro seen a ha
      by_cases hm : (d :: t) ∈ seen
      · rw [walkChain_cons, if_pos hm]
        exact ha
      · rw [walkChain_cons, if_neg hm]
        exact ih ((d :: t) :: seen) a (List.mem_cons_of_mem _ ha)

theorem walkChain_cc (n : String) (l : Nat) (hO : Option CommitId) (mk : Bool) :
    ∀ (c : CommitId) (seen : List CommitId),
      (∀ x ∈ seen,
        (isAncestor x c = true → ∀ a, isAncestor a x = true → a ∈ seen) ∧
        (∀ a, isAncestor a x = true → a ∈ seen ∨ isAncestor a c = true)) →
      (∀ a, isAncestor a c = true → a ∈ (walkChain n l hO mk c seen).2) ∧
      (∀ x ∈ (walkChain n l hO mk c seen).2, ∀ a, isAncestor a x = true →
        a ∈ (walkChain n l hO mk c seen).2) := by
  intro c
  induction c with
  | nil =>
      intro seen hI
      constructor
      · intro a ha; simp [isAncestor] at ha
      · intro x hx a hax
        rw [walkChain_nil] at hx ⊢
        rcases (hI x hx).2 a hax with h | h
        · exact h
        · simp [isAncestor] at h
  | cons d t ih =>
      intro seen hI
      by_cases hm : (d :: t) ∈ seen
      · have hstop : walkChain n l hO mk (d :: t) seen = ([], seen) := by
          rw [walkChain_cons, if_pos hm]
        rw [hstop]
        have hcov : ∀ a, isAncestor a (d :: t) = true → a ∈ seen := by
          intro a ha
          have hself : isAncestor (d :: t) (d :: t) = true := by
            rw [isAncestor, if_pos rfl]
          exact (hI (d :: t) hm).1 hself a ha
        constructor
        · exact hcov
        · intro x hx a hax
          rcases (hI x hx).2 a hax with h | h
          · exact h
          · exact hcov a h
      · have h2 : (walkChain n l hO mk (d :: t) seen).2 =
            (walkChain n l hO mk t ((d :: t) :: seen)).2 := by
          rw [walkChain_cons, if_neg hm]
        have hI' : ∀ x ∈ (d :: t) :: seen,
            (isAncestor x t = true → ∀ a, isAncestor a x = true → a ∈ (d :: t) :: seen) ∧
            (∀ a, isAncestor a x = true → a ∈ (d :: t) :: seen ∨ isAncestor a t = true) := by
          intro x hx
          rcases List.mem_cons.1 hx with rfl | hxs
          · constructor
            · intro hxt
              have hlen := isAncestor_length hxt
              simp only [List.length_cons] at hlen
              exact absurd hlen (by omega)
            · intro a ha
              rw [isAncestor] at ha
              by_cases he : a = d :: t
              · exact Or.inl (by simp [he])
              · rw [if_neg he] at ha
                exact Or.inr ha
          · constructor
            · intro hxt a ha
              have hxc : isAncestor x (d :: t) = true := by
                rw [isAncestor]
                by_cases he : x = d :: t
                · rw [if_pos he]
                · rw [if_neg he]; exact hxt
              exact List.mem_cons_of_mem _ ((hI x hxs).1 hxc a ha)
            · intro a ha
              rcases (hI x hxs).2 a ha with h | h
              · exact Or.inl (List.mem_cons_of_mem _ h)
              · rw [isAncestor] at h
                by_cases he : a = d :: t
                · exact Or.inl (by simp [he])
                · rw [if_neg he] at h
                  exact Or.inr h
        obtain ⟨ihcov, ihcl⟩ := ih ((d :: t) :: seen) hI'
        constructor
        · intro a ha
          rw [h2]
          rw [isAncestor] at ha
          by_cases he : a = d :: t
          · subst he
            exact walkChain_seen_mono n l hO mk t ((d :: t) :: seen) _
              (List.mem_cons_self _ _)
          · rw [if_neg he] at ha
            exact ihcov a ha
        · intro x hx a hax
          rw [h2] at hx ⊢
          exact ihcl x hx a hax

theorem walkChain_ids (n : String) (l : Nat) (hO : Option CommitId) (mk : Bool) :
    ∀ (c : CommitId) (seen : List CommitId),
      ((walkChain n l hO mk c seen).1.map (fun nd => nd.id)).Nodup ∧
      (∀ a, a ∈ (walkChain n l hO mk c seen).2 ↔
        a ∈ (walkChain n l hO mk c seen).1.map (fun nd => nd.id) ∨ a ∈ seen) ∧
      (∀ a ∈ (walkChain n l hO mk c seen).1.map (fun nd => nd.id), a ∉ seen) := by
  intro c
  induction c with
  | nil =>
      intro seen
      rw [walkChain_nil]
      exact ⟨by simp, fun a => by simp, by simp⟩
  | cons d t ih =>
      intro seen
      by_cases hm : (d :: t) ∈ seen
      · rw [walkChain_cons, if_pos hm]
        exact ⟨by simp, fun a => by simp, by simp⟩
      · have hmap : (walkChain n l hO mk (d :: t) seen).1.map (fun nd => nd.id) =
            (d :: t) :: (walkChain n l hO mk t ((d :: t) :: seen)).1.map (fun nd => nd.id) := by
          rw [walkChain_cons, if_neg hm]
          rfl
        have h2 : (walkChain n l hO mk (d :: t) seen).2 =
            (walkChain n l hO mk t ((d :: t) :: seen)).2 := by
          rw [walkChain_cons, if_neg hm]
        obtain ⟨ihn, ihiff, ihdis⟩ := ih ((d :: t) :: seen)
        refine ⟨?_, ?_, ?_⟩
        · rw [hmap]
          refine List.nodup_cons.2 ⟨?_, ihn⟩
          intro hmem
          exact ihdis _ hmem (List.mem_cons_self _ _)
        · intro a
          rw [h2, hmap]
          constructor
          · intro ha
            rcases (ihiff a).1 ha with h | h
            · exact Or.inl (List.mem_cons_of_mem _ h)
            · rcases List.mem_cons.1 h with rfl | h'
              · exact Or.inl (List.mem_cons_self _ _)
              · exact Or.inr h'
          · intro ha
            rcases ha with h | h
            · rcases List.mem_cons.1 h with rfl | h'
              · exact (ihiff _).2 (Or.inr (List.mem_cons_self _ _))
              · exact (ihiff _).2 (Or.inl h')
            · exact (ihiff a).2 (Or.inr (List.mem_cons_of_mem _ h))
        · intro a ha hseen
          rw [hmap] at ha
          rcases List.mem_cons.1 ha with rfl | h'
          · exact hm hseen
          · exact ihdis a h' (List.mem_cons_of_mem _ hseen)

theorem walkChain_nodes (n : String) (l : Nat) (hO : Option CommitId) (mk : Bool) :
    ∀ (c : CommitId) (seen : List CommitId) (nd : GraphNode),
      nd ∈ (walkChain n l hO mk c seen).1 →
      nd.is_head = (mk && decide (hO = some nd.id)) := by
  intro c
  induction c with
  | nil => intro seen nd hnd; rw [walkChain_nil] at hnd; simp at hnd
  | cons d t ih =>
      intro seen nd hnd
      by_cases hm : (d :: t) ∈ seen
      · rw [walkChain_cons, if_pos hm] at hnd
        simp at hnd
      · rw [walkChain_cons, if_neg hm] at hnd
        rcases List.mem_cons.1 hnd with rfl | h'
        · rfl
        · exact ih _ nd h'

theorem walkTimelines_seen_mono (s : RepoState) (hO : Option CommitId) :
    ∀ (tls : List TimelineInfo) (seen : List CommitId) (a : CommitId), a ∈ seen →
      a ∈ (walkTimelines s hO tls seen).2 := by
  intro tls
  induction tls with
  | nil => intro seen a ha; rw [walkTimelines_nil]; exact ha
  | cons tl rest ih =>
      intro seen a ha
      rw [walkTimelines_cons]
      cases hr : resolveTip s tl with
      | none => exact ih seen a ha
      | some tip =>
          exact ih _ a (walkChain_seen_mono tl.name tl.color_index hO true tip seen a ha)

theorem walkTimelines_cc (s : RepoState) (hO : Option CommitId) :
    ∀ (tls : List TimelineInfo) (seen : List CommitId),
      (∀ x ∈ seen, ∀ a, isAncestor a x = true → a ∈ seen) →
      (∀ x ∈ (walkTimelines s hO tls seen).2, ∀ a, isAncestor a x = true →
        a ∈ (walkTimelines s hO tls seen).2) ∧
      (∀ tl ∈ tls, ∀ tip, resolveTip s tl = some tip → ∀ a, isAncestor a tip = true →
        a ∈ (walkTimelines s hO tls seen).2) := by
  intro tls
  induction tls with
  | nil =>
      intro seen hcl
      constructor
      · intro x hx a hax
        rw [walkTimelines_nil] at hx ⊢
        exact hcl x hx a hax
      · intro tl htl
        simp at htl
  | cons tl rest ih =>
      intro seen hcl
      cases hr : resolveTip s tl with
      | none =>
          have he : walkTimelines s hO (tl :: rest) seen = walkTimelines s hO rest seen := by
            rw [walkTimelines_cons, hr]
          rw [he]
          obtain ⟨c1, c2⟩ := ih seen hcl
          refine ⟨c1, ?_⟩
          intro tl' htl' tip htip a ha
          rcases List.mem_cons.1 htl' with rfl | h'
          · rw [hr] at htip
            exact absurd htip (by simp)
          · exact c2 tl' h' tip htip a ha
      | some tip =>
          have he : (walkTimelines s hO (tl :: rest) seen).2 =
              (walkTimelines s hO rest
                (walkChain tl.name tl.color_index hO true tip seen).2).2 := by
            rw [walkTimelines_cons, hr]
          have hIv : ∀ x ∈ seen,
              (isAncestor x tip = true → ∀ a, isAncestor a x = true → a ∈ seen) ∧
              (∀ a, isAncestor a x = true → a ∈ seen ∨ isAncestor a tip = true) := by
            intro x hx
            exact ⟨fun _ a ha => hcl x hx a ha, fun a ha => Or.inl (hcl x hx a ha)⟩
          obtain ⟨wcov, wcl⟩ := walkChain_cc tl.name tl.color_index hO true tip seen hIv
          obtain ⟨c1, c2⟩ := ih (walkChain tl.name tl.color_index hO true tip seen).2 wcl
          rw [he]
          refine ⟨c1, ?_⟩
          intro tl' htl' tip' htip' a ha
          rcases List.mem_cons.1 htl' with rfl | h'
          · rw [hr] at htip'
            injection htip' with hinj
            subst hinj
            exact walkTimelines_seen_mono s hO rest _ a (wcov a ha)
          · exact c2 tl' h' tip' htip' a ha

theorem walkTimelines_ids (s : RepoState) (hO : Option CommitId) :
    ∀ (tls : List TimelineInfo) (seen : List CommitId),
      ((walkTimelines s hO tls seen).1.map (fun nd => nd.id)).Nodup ∧
      (∀ a, a ∈ (walkTimelines s hO tls seen).2 ↔
        a ∈ (walkTimelines s hO tls seen).1.map (fun nd => nd.id) ∨ a ∈ seen) ∧
      (∀ a ∈ (walkTimelines s hO tls seen).1.map (fun nd => nd.id), a ∉ seen) := by
  intro tls
  induction tls with
  | nil =>
      intro seen
      rw [walkTimelines_nil]
      exact ⟨by simp, fun a => by simp, by simp⟩
  | cons tl rest ih =>
      intro seen
      cases hr : resolveTip s tl with
      | none =>
          have he : walkTimelines s hO (tl :: rest) seen = walkTimelines s hO rest seen := by
            rw [walkTimelines_cons, hr]
          rw [he]
          exact ih seen
      | some tip =>
          have h1 : (walkTimelines s hO (tl :: rest) seen).1 =
              (walkChain tl.name tl.color_index hO true tip seen).1 ++
              (walkTimelines s hO rest
                (walkChain tl.name tl.color_index hO true tip seen).2).1 := by
            rw [walkTimelines_cons, hr]
          have h2 : (walkTimelines s hO (tl :: rest) seen).2 =
              (walkTimelines s hO rest
                (walkChain tl.name tl.color_index hO true tip seen).2).2 := by
            rw [walkTimelines_cons, hr]
          obtain ⟨wn, wiff, wdis⟩ := walkChain_ids tl.name tl.color_index hO true tip seen
          obtain ⟨rn, riff, rdis⟩ :=
            ih (walkChain tl.name tl.color_index hO true tip seen).2
          rw [h1, h2]
          rw [List.map_append]
          refine ⟨?_, ?_, ?_⟩
          · rw [List.nodup_append]
            refine ⟨wn, rn, ?_⟩
            intro a haw har
            exact rdis a har ((wiff a).2 (Or.inl haw))
          · intro a
            constructor
            · intro ha
              rcases (riff a).1 ha with h | h
              · exact Or.inl (List.mem_append.2 (Or.inr h))
              · rcases (wiff a).1 h with h' | h'
                · exact Or.inl (List.mem_append.2 (Or.inl h'))
                · exact Or.inr h'
            · intro ha
              rcases ha with h | h
              · rcases List.mem_append.1 h with h' | h'
                · exact (riff a).2 (Or.inr ((wiff a).2 (Or.inl h')))
                · exact (riff a).2 (Or.inl h')
              · exact (riff a).2 (Or.inr ((wiff a).2 (Or.inr h)))
          · intro a ha hseen
            rcases List.mem_append.1 ha with h | h
            · exact wdis a h hseen
            · exact rdis a h ((wiff a).2 (Or.inr hseen))

theorem walkTimelines_nodes (s : RepoState) (hO : Option CommitId) :
    ∀ (tls : List TimelineInfo) (seen : List CommitId) (nd : GraphNode),
      nd ∈ (walkTimelines s hO tls seen).1 →
      nd.is_head = decide (hO = some nd.id) := by
  intro tls
  induction tls with
  | nil =>
      intro seen nd hnd
      rw [walkTimelines_nil] at hnd
      simp at hnd
  | cons tl rest ih =>
      intro seen nd hnd
      cases hr : resolveTip s tl with
      | none =>
          have he : walkTimelines s hO (tl :: rest) seen = walkTimelines s hO rest seen := by
            rw [walkTimelines_cons, hr]
          rw [he] at hnd
          exact ih seen nd hnd
      | some tip =>
          have h1 : (walkTimelines s hO (tl :: rest) seen).1 =
              (walkChain tl.name tl.color_index hO true tip seen).1 ++
              (walkTimelines s hO rest
                (walkChain tl.name tl.color_index hO true tip seen).2).1 := by
            rw [walkTimelines_cons, hr]
          rw [h1] at hnd
          rcases List.mem_append.1 hnd with h | h
          · have hc := walkChain_nodes tl.name tl.color_index hO true tip seen nd h
            simpa using hc
          · exact ih _ nd h

theorem prevTipNodes_not_head (s : RepoState) (hO : Option CommitId)
    (aO : Option TimelineInfo) (seen : List CommitId) :
    ∀ nd ∈ (prevTipNodes s hO aO seen).1, nd.is_head = false := by
  intro nd hnd
  unfold prevTipNodes at hnd
  cases hpt : s.prevTip with
  | none =>
      rw [hpt] at hnd
      simp at hnd
  | some pt =>
      rw [hpt] at hnd
      dsimp only at hnd
      have hc := walkChain_nodes _ _ hO false pt seen nd hnd
      simpa using hc

theorem correctFirst_pairs (h : CommitId) (a : TimelineInfo) :
    ∀ l : List GraphNode,
      (correctFirst h a l).map (fun nd => (nd.id, nd.is_head)) =
      l.map (fun nd => (nd.id, nd.is_head)) := by
  intro l
  induction l with
  | nil => rfl
  | cons n rest ih =>
      rw [correctFirst]
      by_cases he : n.id = h
      · rw [if_pos he]
        by_cases ht : n.timeline ≠ a.name
        · rw [if_pos ht]
          simp
        · rw [if_neg ht]
      · rw [if_neg he]
        simp only [List.map_cons, ih]

theorem correctHead_pairs (hO : Option CommitId) (aO : Option TimelineInfo)
    (l : List GraphNode) :
    (correctHead hO aO l).map (fun nd => (nd.id, nd.is_head)) =
    l.map (fun nd => (nd.id, nd.is_head)) := by
  unfold correctHead
  cases hO with
  | none => rfl
  | some h =>
      cases aO with
      | none => rfl
      | some a => exact correctFirst_pairs h a l

theorem countP_ext {α : Type} (p q : α → Bool) :
    ∀ l : List α, (∀ x ∈ l, p x = q x) → l.countP p = l.countP q := by
  intro l
  induction l with
  | nil => intro _; rfl
  | cons x xs ih =>
      intro hpq
      rw [List.countP_cons, List.countP_cons,
        ih (fun y hy => hpq y (List.mem_cons_of_mem _ hy)),
        hpq x (List.mem_cons_self _ _)]

theorem countP_eq_one_of_nodup {α : Type} [DecidableEq α] (h : α) :
    ∀ l : List α, l.Nodup → h ∈ l → l.countP (fun i => decide (h = i)) = 1 := by
  intro l
  induction l with
  | nil => intro _ hm; simp at hm
  | cons x xs ih =>
      intro hnd hm
      rw [List.countP_cons]
      by_cases he : h = x
      · subst he
        have hnx : h ∉ xs := (List.nodup_cons.1 hnd).1
        have h0 : xs.countP (fun i => decide (h = i)) = 0 := by
          apply List.countP_eq_zero.2
          intro a ha
          simp only [decide_eq_true_eq]
          intro hha
          subst hha
          exact hnx ha
        simp [h0]
      · rcases List.mem_cons.1 hm with rfl | hxs
        · exact absurd rfl he
        · have hx := ih (List.nodup_cons.1 hnd).2 hxs
          simp [hx, he]

theorem countP_head_of_pairs (l1 l2 : List GraphNode)
    (hp : l1.map (fun nd => (nd.id, nd.is_head)) = l2.map (fun nd => (nd.id, nd.is_head))) :
    l1.countP (fun nd => nd.is_head) = l2.countP (fun nd => nd.is_head) := by
  have h1 : l1.countP (fun nd => nd.is_head) =
      (l1.map (fun nd => (nd.id, nd.is_head))).countP (fun pr => pr.2) := by
    rw [List.countP_map]
    rfl
  have h2 : l2.countP (fun nd => nd.is_head) =
      (l2.map (fun nd => (nd.id, nd.is_head))).countP (fun pr => pr.2) := by
    rw [List.countP_map]
    rfl
  rw [h1, h2, hp]

theorem mem_pairs {l1 l2 : List GraphNode}
    (hp : l1.map (fun nd => (nd.id, nd.is_head)) = l2.map (fun nd => (nd.id, nd.is_head)))
    {nd : GraphNode} (hnd : nd ∈ l1) :
    ∃ nd2 ∈ l2, nd.id = nd2.id ∧ nd.is_head = nd2.is_head := by
  have hmm : (nd.id, nd.is_head) ∈ l2.map (fun nd => (nd.id, nd.is_head)) := by
    rw [← hp]
    exact List.mem_map_of_mem _ hnd
  rcases List.mem_map.1 hmm with ⟨nd2, hnd2, heq⟩
  simp only [Prod.mk.injEq] at heq
  exact ⟨nd2, hnd2, heq.1.symm, heq.2.symm⟩

/-- Claim C9 (amended): in every output of get_timeline_graph, any node
whose is_head field is true carries HEAD's commit id, and when HEAD's
commit lies on the first-parent chain of some listed timeline's tip,
exactly one node is marked.  A detached HEAD at a commit that no listed
timeline tip reaches by first-parent walk yields ZERO marked nodes (and
nodes contributed by the prev-tip chain are never marked), so "exactly one
node, always" does not hold. -/
theorem c9_head_marking (s : RepoState) (h tip : CommitId) (tl : TimelineInfo)
    (hw : wfState s = true)
    (hh : head_commit s = some h)
    (htl : tl ∈ list_timelines s)
    (htip : resolveTip s tl = some tip)
    (hanc : isAncestor h tip = true) :
    (get_timeline_graph s).countP (fun nd => nd.is_head) = 1 ∧
    (∀ nd ∈ get_timeline_graph s, nd.is_head = true → nd.id = h) := by
  have hperm : List.Perm (get_timeline_graph s)
      (correctHead (head_commit s) ((list_timelines s).find? (fun t => t.is_active))
        ((walkTimelines s (head_commit s) (list_timelines s) []).1 ++
         (prevTipNodes s (head_commit s)
           ((list_timelines s).find? (fun t => t.is_active))
           (walkTimelines s (head_commit s) (list_timelines s) []).2).1)) := by
    unfold get_timeline_graph
    exact List.perm_insertionSort _ _
  obtain ⟨hndup, hiff, _⟩ := walkTimelines_ids s (head_commit s) (list_timelines s) []
  obtain ⟨_, hcov⟩ := walkTimelines_cc s (head_commit s) (list_timelines s) []
    (by intro x hx; simp at hx)
  have hmem2 : h ∈ (walkTimelines s (head_commit s) (list_timelines s) []).2 :=
    hcov tl htl tip htip h hanc
  have hmemids :
      h ∈ (walkTimelines s (head_commit s) (list_timelines s) []).1.map (fun nd => nd.id) := by
    rcases (hiff h).1 hmem2 with hx | hx
    · exact hx
    · simp at hx
  have hcw : (walkTimelines s (head_commit s) (list_timelines s) []).1.countP
      (fun nd => nd.is_head) = 1 := by
    have hcongr : (walkTimelines s (head_commit s) (list_timelines s) []).1.countP
        (fun nd => nd.is_head) =
        (walkTimelines s (head_commit s) (list_timelines s) []).1.countP
          (fun nd => decide (h = nd.id)) := by
      apply countP_ext
      intro nd hnd
      have hn := walkTimelines_nodes s (head_commit s) (list_timelines s) [] nd hnd
      rw [hh] at hn
      rw [hn]
      simp
    rw [hcongr]
    have hmapped : (walkTimelines s (head_commit s) (list_timelines s) []).1.countP
        (fun nd => decide (h = nd.id)) =
        ((walkTimelines s (head_commit s) (list_timelines s) []).1.map
          (fun nd => nd.id)).countP (fun i => decide (h = i)) := by
      rw [List.countP_map]
      rfl
    rw [hmapped]
    exact countP_eq_one_of_nodup h _ hndup hmemids
  have hcp : (prevTipNodes s (head_commit s)
      ((list_timelines s).find? (fun t => t.is_active))
      (walkTimelines s (head_commit s) (list_timelines s) []).2).1.countP
      (fun nd => nd.is_head) = 0 := by
    apply List.countP_eq_zero.2
    intro nd hnd
    have hf := prevTipNodes_not_head s (head_commit s)
      ((list_timelines s).find? (fun t => t.is_active))
      (walkTimelines s (head_commit s) (list_timelines s) []).2 nd hnd
    simp [hf]
  have hallN : ∀ nd ∈ (walkTimelines s (head_commit s) (list_timelines s) []).1 ++
      (prevTipNodes s (head_commit s)
        ((list_timelines s).find? (fun t => t.is_active))
        (walkTimelines s (head_commit s) (list_timelines s) []).2).1,
      nd.is_head = true → nd.id = h := by
    intro nd hnd hih
    rcases List.mem_append.1 hnd with hx | hx
    · have hn := walkTimelines_nodes s (head_commit s) (list_timelines s) [] nd hx
      rw [hh] at hn
      rw [hn] at hih
      have hdec := of_decide_eq_true hih
      exact (Option.some.inj hdec).symm
    · have hf := prevTipNodes_not_head s (head_commit s)
        ((list_timelines s).find? (fun t => t.is_active))
        (walkTimelines s (head_commit s) (list_timelines s) []).2 nd hx
      rw [hf] at hih
      simp at hih
  constructor
  · rw [List.Perm.countP_eq _ hperm]
    rw [countP_head_of_pairs _ _
      (correctHead_pairs (head_commit s) ((list_timelines s).find? (fun t => t.is_active)) _)]
    rw [List.countP_append, hcw, hcp]
  · intro nd hnd hih
    have hnd' := hperm.mem_iff.1 hnd
    obtain ⟨nd2, hnd2, hid, hih2⟩ := mem_pairs
      (correctHead_pairs (head_commit s)
        ((list_timelines s).find? (fun t => t.is_active)) _) hnd'
    rw [hih2] at hih
    rw [hid]
    exact hallN nd2 hnd2 hih

/-- Claim C9 counterexample: a detached HEAD at a commit no listed timeline
tip reaches (main points only at the first commit): head_commit is defined,
but no node of the graph carries the is_head mark. -/
theorem c9_counterexample :
    wfState sC9 = true ∧ head_commit sC9 = some cB ∧
    (get_timeline_graph sC9).countP (fun nd => nd.is_head) = 0 := by decide

theorem c9_head_marking_witness :
    wfState sTip = true ∧ head_commit sTip = some cB ∧
    isAncestor cB cB = true ∧
    (get_timeline_graph sTip).countP (fun nd => nd.is_head) = 1 :=
  ⟨by decide, by decide, by decide,
    (c9_head_marking sTip cB cB
      { name := "main", label := "Main", is_active := true,
        snapshot_count := 2, color_index := 0 }
      (by decide) (by decide) (by decide) (by decide) (by decide)).1⟩
